import Mathlib

set_option autoImplicit false

/-!
Verification development for `phish_extractor.py`.

The Python source is embedded shallowly: strings become `List Char`, Python
dicts (which preserve insertion order) become association lists, `None` and
exception-free failure become `Option`, and the retry loop of `make_request`
becomes a structurally recursive function over the number of remaining
attempts.  Wall-clock sleeps are recorded as an explicit event trace.
-/

/-! ## Python string primitives over `List Char` -/

/-- Characters treated as whitespace by Python's `str.strip()` (ASCII part). -/
def is_py_space (c : Char) : Bool :=
  c = ' ' || c = '\t' || c = '\n' || c = '\r' || c = '\x0b' || c = '\x0c'

/-- Python `str.lstrip()`. -/
def py_lstrip (s : List Char) : List Char := s.dropWhile is_py_space

/-- Python `str.rstrip()`. -/
def py_rstrip (s : List Char) : List Char := (s.reverse.dropWhile is_py_space).reverse

/-- Python `str.strip()`. -/
def py_strip (s : List Char) : List Char := py_rstrip (py_lstrip s)

/-- Python `str.split(sep)` for a one-character separator: keeps empty chunks,
returns `[""]` on the empty string. -/
def split_on_char (sep : Char) : List Char → List (List Char)
  | [] => [[]]
  | c :: rest =>
    match split_on_char sep rest with
    | [] => [[c]]
    | t :: ts => if c = sep then [] :: t :: ts else (c :: t) :: ts

/-- Python `str.split(sep, 1)` combined with the `sep in s` test: `some (a, b)`
when `s = a ++ sep :: b` with `sep ∉ a`, and `none` when `sep` never occurs. -/
def split_first (sep : Char) : List Char → Option (List Char × List Char)
  | [] => none
  | c :: rest =>
    if c = sep then some ([], rest)
    else
      match split_first sep rest with
      | none => none
      | some (a, b) => some (c :: a, b)

/-- Python `str.lower()`; after `clean_column_name`'s substitution only ASCII
word characters remain, where Python lowering agrees with `Char.toLower`. -/
def py_lower (s : List Char) : List Char := s.map Char.toLower

/-! ## HTTP client wrapper: `make_request` (phish_extractor.py lines 39-89) -/

/-- Parsed JSON body of a 2xx response; the model only tracks whether the
`error` field is truthy, which is all `make_request` inspects
(`if data.get('error') and data.get('error') != False`). -/
structure JsonBody where
  error_is_truthy : Bool
deriving DecidableEq, Repr

/-- Outcome of one `requests.get` attempt, as observed by `make_request`:
a 429 status, a `requests.exceptions.RequestException` (timeout, connection
error, or the `raise_for_status` of a non-2xx status other than 429), or a
2xx response whose body either fails to parse as JSON (`ok none`) or parses
to a body (`ok (some b)`). -/
inductive AttemptOutcome where
  | status429
  | requestError
  | ok (parsed : Option JsonBody)
deriving DecidableEq, Repr

/-- One `time.sleep` call performed by `make_request`: the 429 backoff
`5 * (attempt + 1)`, the failure backoff `2 * (attempt + 1)`, or the fixed
inter-request delay `self.request_delay` (0.5 s). -/
inductive SleepEvent where
  | rate_limit_backoff (seconds : Nat)
  | failure_backoff (seconds : Nat)
  | request_delay
deriving DecidableEq, Repr

/-- Observable behaviour of one `make_request` call: the returned value
(`none` models Python `None`), how many HTTP requests were issued, and the
sleeps performed in order.  Totality of the function models the absence of
escaping exceptions. -/
structure RequestTrace where
  result : Option JsonBody
  requests_made : Nat
  sleeps : List SleepEvent
deriving DecidableEq, Repr

/-- The retry loop of `make_request`.  `remaining` counts the attempts left
(`retry_count - attempt`), so the Python guard `attempt < retry_count - 1`
becomes `0 < remaining` after one attempt is peeled off.  On a 2xx response
the code sleeps `request_delay` first and only then parses the body and
checks the `error` field, so that sleep is recorded on those paths too. -/
def make_request_loop (resp : Nat → AttemptOutcome) : Nat → Nat → RequestTrace
  | 0, _ => { result := none, requests_made := 0, sleeps := [] }
  | remaining + 1, attempt =>
    match resp attempt with
    | AttemptOutcome.status429 =>
      let t := make_request_loop resp remaining (attempt + 1)
      { result := t.result, requests_made := t.requests_made + 1,
        sleeps := SleepEvent.rate_limit_backoff (5 * (attempt + 1)) :: t.sleeps }
    | AttemptOutcome.requestError =>
      if 0 < remaining then
        let t := make_request_loop resp remaining (attempt + 1)
        { result := t.result, requests_made := t.requests_made + 1,
          sleeps := SleepEvent.failure_backoff (2 * (attempt + 1)) :: t.sleeps }
      else { result := none, requests_made := 1, sleeps := [] }
    | AttemptOutcome.ok none =>
      { result := none, requests_made := 1, sleeps := [SleepEvent.request_delay] }
    | AttemptOutcome.ok (some body) =>
      if body.error_is_truthy then
        { result := none, requests_made := 1, sleeps := [SleepEvent.request_delay] }
      else
        { result := some body, requests_made := 1, sleeps := [SleepEvent.request_delay] }

/-- Default `retry_count` of `make_request`. -/
def default_retry_count : Nat := 3

/-- The API key hard-coded in `PhishDataExtractor.__init__`. -/
def default_api_key : List Char := "A59D71B642DA223E6F61".data

/-- Model of `make_request`: fails immediately with no request when no API
key is configured (`if self.api_key` is falsy), otherwise runs the retry
loop with `retry_count` attempts available starting at attempt 0. -/
def make_request (api_key : List Char) (resp : Nat → AttemptOutcome)
    (retry_count : Nat) : RequestTrace :=
  if api_key = [] then { result := none, requests_made := 0, sleeps := [] }
  else make_request_loop resp retry_count 0

/-- Whether the retry loop terminates by receiving a 2xx response (of any
body validity), as opposed to exhausting its attempts on 429s and request
errors.  Mirrors the control flow of `make_request_loop` but forgets
everything except the terminating event. -/
def loop_hits_2xx (resp : Nat → AttemptOutcome) : Nat → Nat → Bool
  | 0, _ => false
  | remaining + 1, attempt =>
    match resp attempt with
    | AttemptOutcome.status429 => loop_hits_2xx resp remaining (attempt + 1)
    | AttemptOutcome.requestError =>
      if 0 < remaining then loop_hits_2xx resp remaining (attempt + 1) else false
    | AttemptOutcome.ok _ => true

theorem make_request_loop_all_429 (resp : Nat → AttemptOutcome)
    (h : ∀ n, resp n = AttemptOutcome.status429) :
    ∀ remaining attempt, make_request_loop resp remaining attempt =
      { result := none, requests_made := remaining,
        sleeps := (List.range remaining).map
          (fun i => SleepEvent.rate_limit_backoff (5 * (attempt + i + 1))) } := by
  intro remaining
  induction remaining with
  | zero => intro attempt; simp [make_request_loop]
  | succ n ih =>
    intro attempt
    rw [make_request_loop, h attempt]
    simp only [ih (attempt + 1), List.range_succ_eq_map, List.map_cons, List.map_map]
    refine congrArg _ ?_
    refine congrArg₂ _ (by simp) ?_
    refine List.map_congr_left ?_
    intro i _
    simp [Function.comp]
    omega

theorem make_request_loop_delay_iff (resp : Nat → AttemptOutcome) :
    ∀ remaining attempt,
      (SleepEvent.request_delay ∈ (make_request_loop resp remaining attempt).sleeps ↔
        loop_hits_2xx resp remaining attempt = true) := by
  intro remaining
  induction remaining with
  | zero => intro attempt; simp [make_request_loop, loop_hits_2xx]
  | succ n ih =>
    intro attempt
    rw [make_request_loop, loop_hits_2xx]
    cases hr : resp attempt with
    | status429 => simpa using ih (attempt + 1)
    | requestError =>
      by_cases h0 : 0 < n
      · simpa [h0] using ih (attempt + 1)
      · simp [h0]
    | ok parsed =>
      cases parsed with
      | none => simp
      | some body => by_cases hb : body.error_is_truthy <;> simp [hb]

theorem make_request_loop_success_delay (resp : Nat → AttemptOutcome) :
    ∀ remaining attempt,
      (make_request_loop resp remaining attempt).result.isSome = true →
      SleepEvent.request_delay ∈ (make_request_loop resp remaining attempt).sleeps := by
  intro remaining
  induction remaining with
  | zero => intro attempt; simp [make_request_loop]
  | succ n ih =>
    intro attempt
    rw [make_request_loop]
    cases hr : resp attempt with
    | status429 =>
      intro h
      simp only [List.mem_cons]
      exact Or.inr (ih (attempt + 1) (by simpa using h))
    | requestError =>
      by_cases h0 : 0 < n
      · intro h
        simp only [if_pos h0, List.mem_cons]
        exact Or.inr (ih (attempt + 1) (by simpa [h0] using h))
      · simp [h0]
    | ok parsed =>
      cases parsed with
      | none => simp
      | some body => by_cases hb : body.error_is_truthy <;> simp [hb]

/-- C1: when every attempt is answered with HTTP 429 and an API key is
configured, `make_request` issues exactly `retry_count` requests, sleeps
`5 * attempt_number` seconds after each 429 (attempts numbered from 1), and
returns `None`; totality of the model reflects that no exception escapes. -/
theorem C1_retry_ceiling_on_429 (api_key : List Char) (resp : Nat → AttemptOutcome)
    (retry_count : Nat) (hkey : api_key ≠ [])
    (h429 : ∀ n, resp n = AttemptOutcome.status429) :
    (make_request api_key resp retry_count).result = none ∧
    (make_request api_key resp retry_count).requests_made = retry_count ∧
    (make_request api_key resp retry_count).sleeps =
      (List.range retry_count).map
        (fun i => SleepEvent.rate_limit_backoff (5 * (i + 1))) := by
  unfold make_request
  rw [if_neg hkey, make_request_loop_all_429 resp h429 retry_count 0]
  exact ⟨rfl, rfl, by simp⟩

theorem C1_retry_ceiling_on_429_witness :
    (make_request default_api_key (fun _ => AttemptOutcome.status429)
        default_retry_count).result = none ∧
    (make_request default_api_key (fun _ => AttemptOutcome.status429)
        default_retry_count).requests_made = default_retry_count ∧
    (make_request default_api_key (fun _ => AttemptOutcome.status429)
        default_retry_count).sleeps =
      (List.range default_retry_count).map
        (fun i => SleepEvent.rate_limit_backoff (5 * (i + 1))) :=
  C1_retry_ceiling_on_429 default_api_key (fun _ => AttemptOutcome.status429)
    default_retry_count (by decide) (fun _ => rfl)

/-- C2 counterexample: with the default key, a single 2xx response whose JSON
body carries a truthy `error` field makes `make_request` return a null result
(a semantic failure), yet the inter-request delay HAS been slept, because the
code sleeps it before parsing the body and checking the `error` field.  This
refutes the claim that the delay is never slept on that failure path. -/
theorem C2_counterexample :
    (make_request default_api_key
        (fun _ => AttemptOutcome.ok (some { error_is_truthy := true }))
        default_retry_count).result = none ∧
    SleepEvent.request_delay ∈
      (make_request default_api_key
        (fun _ => AttemptOutcome.ok (some { error_is_truthy := true }))
        default_retry_count).sleeps := by
  exact ⟨by decide, by decide⟩

/-- C2 (amended): with an API key configured, `make_request` sleeps the fixed
inter-request delay on every call that returns a successful result, and more
generally it sleeps that delay exactly when the retry loop terminates via a
2xx response — including the failure paths where the 2xx body carries a
truthy `error` field or fails to parse as JSON; it never sleeps it when every
attempt ends in a 429 or a request-level failure. -/
theorem C2_request_delay_characterization (api_key : List Char)
    (resp : Nat → AttemptOutcome) (retry_count : Nat) (hkey : api_key ≠ []) :
    ((make_request api_key resp retry_count).result.isSome = true →
      SleepEvent.request_delay ∈ (make_request api_key resp retry_count).sleeps) ∧
    (SleepEvent.request_delay ∈ (make_request api_key resp retry_count).sleeps ↔
      loop_hits_2xx resp retry_count 0 = true) := by
  unfold make_request
  rw [if_neg hkey]
  exact ⟨make_request_loop_success_delay resp retry_count 0,
    make_request_loop_delay_iff resp retry_count 0⟩

theorem C2_request_delay_characterization_witness :
    ((make_request default_api_key
        (fun _ => AttemptOutcome.ok (some { error_is_truthy := false }))
        default_retry_count).result.isSome = true →
      SleepEvent.request_delay ∈
        (make_request default_api_key
          (fun _ => AttemptOutcome.ok (some { error_is_truthy := false }))
          default_retry_count).sleeps) ∧
    (SleepEvent.request_delay ∈
        (make_request default_api_key
          (fun _ => AttemptOutcome.ok (some { error_is_truthy := false }))
          default_retry_count).sleeps ↔
      loop_hits_2xx (fun _ => AttemptOutcome.ok (some { error_is_truthy := false }))
        default_retry_count 0 = true) :=
  C2_request_delay_characterization default_api_key
    (fun _ => AttemptOutcome.ok (some { error_is_truthy := false }))
    default_retry_count (by decide)

/-! ## `clean_column_name` (phish_extractor.py lines 448-455) -/

/-- Characters matched by the regex class `[a-zA-Z0-9_]`, stated on code
points so that interval reasoning is available. -/
def is_word_char (c : Char) : Bool :=
  (97 ≤ c.toNat && c.toNat ≤ 122) || (65 ≤ c.toNat && c.toNat ≤ 90) ||
    (48 ≤ c.toNat && c.toNat ≤ 57) || c.toNat = 95

/-- Lowercase word characters: letters `a`-`z`, digits, underscore. -/
def is_clean_char (c : Char) : Bool :=
  (97 ≤ c.toNat && c.toNat ≤ 122) || (48 ≤ c.toNat && c.toNat ≤ 57) ||
    c.toNat = 95

/-- Model of `re.sub(r'[^a-zA-Z0-9_]', '_', name)`. -/
def sub_non_word (s : List Char) : List Char :=
  s.map (fun c => if is_word_char c then c else '_')

/-- Model of `re.sub(r'_+', '_', cleaned)`: collapses each run of
underscores to a single underscore. -/
def collapse_underscores : List Char → List Char
  | [] => []
  | [c] => [c]
  | c :: d :: rest =>
    if c = '_' ∧ d = '_' then collapse_underscores (d :: rest)
    else c :: collapse_underscores (d :: rest)

/-- Model of Python `str.strip(u)` for a single strip character. -/
def strip_char (u : Char) (s : List Char) : List Char :=
  ((s.dropWhile (fun c => c = u)).reverse.dropWhile (fun c => c = u)).reverse

/-- Model of `clean_column_name`: substitute non-word characters by `_`,
collapse underscore runs, strip boundary underscores, lowercase. -/
def clean_column_name (s : List Char) : List Char :=
  py_lower (strip_char '_' (collapse_underscores (sub_non_word s)))

/-- Adjacent characters are never both underscores. -/
def no_double_underscore (s : List Char) : Prop :=
  List.Chain' (fun a b => ¬(a = '_' ∧ b = '_')) s

theorem char_toNat_ofNat_lt {n : Nat} (h : n < 55296) : (Char.ofNat n).toNat = n := by
  rw [Char.ofNat, dif_pos (Or.inl h)]
  rfl

theorem char_eq_of_toNat_eq {c d : Char} (h : c.toNat = d.toNat) : c = d := by
  rw [← Char.ofNat_toNat c, ← Char.ofNat_toNat d, h]

theorem toLower_toNat_of_upper {c : Char} (h1 : 65 ≤ c.toNat) (h2 : c.toNat ≤ 90) :
    (Char.toLower c).toNat = c.toNat + 32 := by
  rw [Char.toLower]
  simp only [ge_iff_le]
  rw [if_pos ⟨h1, h2⟩]
  exact char_toNat_ofNat_lt (by omega)

theorem toLower_of_not_upper {c : Char} (h : ¬(65 ≤ c.toNat ∧ c.toNat ≤ 90)) :
    Char.toLower c = c := by
  rw [Char.toLower]
  simp only [ge_iff_le]
  rw [if_neg h]

theorem toLower_clean_of_word {c : Char} (h : is_word_char c = true) :
    is_clean_char (Char.toLower c) = true := by
  by_cases hu : 65 ≤ c.toNat ∧ c.toNat ≤ 90
  · have := toLower_toNat_of_upper hu.1 hu.2
    simp only [is_clean_char, this]
    simp only [Bool.or_eq_true, Bool.and_eq_true, decide_eq_true_eq]
    omega
  · rw [toLower_of_not_upper hu]
    simp only [is_word_char, is_clean_char, Bool.or_eq_true, Bool.and_eq_true,
      decide_eq_true_eq] at h ⊢
    omega

theorem toLower_eq_underscore_iff {c : Char} : Char.toLower c = '_' ↔ c = '_' := by
  constructor
  · intro h
    by_cases hu : 65 ≤ c.toNat ∧ c.toNat ≤ 90
    · have h1 := toLower_toNat_of_upper hu.1 hu.2
      rw [h] at h1
      have : ('_' : Char).toNat = 95 := by decide
      omega
    · rwa [toLower_of_not_upper hu] at h
  · intro h; subst h; decide

theorem clean_fixed_toLower {c : Char} (h : is_clean_char c = true) :
    Char.toLower c = c := by
  apply toLower_of_not_upper
  simp only [is_clean_char, Bool.or_eq_true, Bool.and_eq_true, decide_eq_true_eq] at h
  omega

theorem clean_is_word {c : Char} (h : is_clean_char c = true) :
    is_word_char c = true := by
  simp only [is_clean_char, Bool.or_eq_true, Bool.and_eq_true, decide_eq_true_eq] at h
  simp only [is_word_char, Bool.or_eq_true, Bool.and_eq_true, decide_eq_true_eq]
  omega

theorem collapse_head? :
    ∀ s : List Char, (collapse_underscores s).head? = s.head? := by
  intro s
  induction s using collapse_underscores.induct with
  | case1 => rfl
  | case2 c => rfl
  | case3 c d rest h ih =>
    rw [collapse_underscores, if_pos h, ih]
    simp [h.1, h.2]
  | case4 c d rest h ih =>
    rw [collapse_underscores, if_neg h]
    rfl

theorem collapse_no_double :
    ∀ s : List Char, no_double_underscore (collapse_underscores s) := by
  intro s
  induction s using collapse_underscores.induct with
  | case1 => exact List.chain'_nil
  | case2 c => exact List.chain'_singleton c
  | case3 c d rest h ih =>
    rw [collapse_underscores, if_pos h]
    exact ih
  | case4 c d rest h ih =>
    rw [collapse_underscores, if_neg h]
    refine List.chain'_cons'.mpr ⟨?_, ih⟩
    intro y hy
    rw [collapse_head?] at hy
    simp only [List.head?_cons, Option.mem_def, Option.some.injEq] at hy
    subst hy
    exact h

theorem mem_collapse :
    ∀ (s : List Char) (c : Char), c ∈ collapse_underscores s → c ∈ s := by
  intro s
  induction s using collapse_underscores.induct with
  | case1 => intro c h; exact absurd h (by simp [collapse_underscores])
  | case2 c => intro x h; simpa [collapse_underscores] using h
  | case3 c d rest h ih =>
    intro x hx
    rw [collapse_underscores, if_pos h] at hx
    exact List.mem_cons_of_mem c (ih x hx)
  | case4 c d rest h ih =>
    intro x hx
    rw [collapse_underscores, if_neg h] at hx
    rcases List.mem_cons.mp hx with h1 | h1
    · exact h1 ▸ List.mem_cons_self x (d :: rest)
    · exact List.mem_cons_of_mem c (ih x h1)

theorem collapse_eq_self :
    ∀ s : List Char, no_double_underscore s → collapse_underscores s = s := by
  intro s
  induction s using collapse_underscores.induct with
  | case1 => intro _; rfl
  | case2 c => intro _; rfl
  | case3 c d rest h ih =>
    intro hc
    exact absurd h (List.chain'_cons.mp hc).1
  | case4 c d rest h ih =>
    intro hc
    rw [collapse_underscores, if_neg h, ih (List.chain'_cons.mp hc).2]

theorem strip_char_mem {u : Char} {s : List Char} {c : Char}
    (h : c ∈ strip_char u s) : c ∈ s := by
  unfold strip_char at h
  rw [List.mem_reverse] at h
  have h2 : c ∈ (s.dropWhile (fun c => c = u)).reverse :=
    (List.dropWhile_suffix _).sublist.mem h
  rw [List.mem_reverse] at h2
  exact (List.dropWhile_suffix _).sublist.mem h2

theorem no_double_flip {s : List Char}
    (h : List.Chain' (fun a b : Char => ¬(a = '_' ∧ b = '_')) s) :
    List.Chain' (flip (fun a b : Char => ¬(a = '_' ∧ b = '_'))) s :=
  h.imp (fun _ _ hab hba => hab ⟨hba.2, hba.1⟩)

theorem no_double_reverse {s : List Char} (h : no_double_underscore s) :
    no_double_underscore s.reverse :=
  List.chain'_reverse.mpr (no_double_flip h)

theorem no_double_strip {u : Char} {s : List Char} (h : no_double_underscore s) :
    no_double_underscore (strip_char u s) := by
  unfold strip_char
  apply no_double_reverse
  refine List.Chain'.suffix ?_ (List.dropWhile_suffix _)
  apply no_double_reverse
  exact List.Chain'.suffix h (List.dropWhile_suffix _)

theorem getLast?_of_suffix {α : Type} {a b : List α} (h : b <:+ a) (hb : b ≠ []) :
    b.getLast? = a.getLast? := by
  obtain ⟨t, rfl⟩ := h
  rw [List.getLast?_append]
  cases hg : b.getLast? with
  | none => exact absurd (List.getLast?_eq_none_iff.mp hg) hb
  | some x => rfl

theorem strip_char_getLast? {u : Char} {s : List Char} {c : Char}
    (h : (strip_char u s).getLast? = some c) : ¬(c = u) := by
  unfold strip_char at h
  rw [← List.head?_reverse, List.reverse_reverse] at h
  have := List.head?_dropWhile_not (fun c => c = u) (s.dropWhile (fun c => c = u)).reverse
  rw [h] at this
  simpa using this

theorem strip_char_head? {u : Char} {s : List Char} {c : Char}
    (h : (strip_char u s).head? = some c) : ¬(c = u) := by
  unfold strip_char at h
  rw [List.head?_reverse] at h
  set b := (s.dropWhile (fun c => c = u)).reverse.dropWhile (fun c => c = u) with hb
  have hbne : b ≠ [] := by
    intro hnil
    rw [hnil] at h
    exact Option.noConfusion h
  have hsuf : b <:+ (s.dropWhile (fun c => c = u)).reverse := List.dropWhile_suffix _
  rw [getLast?_of_suffix hsuf hbne, ← List.head?_reverse, List.reverse_reverse] at h
  have := List.head?_dropWhile_not (fun c => c = u) s
  rw [h] at this
  simpa using this

theorem dropWhile_eq_self_of_head? {α : Type} (p : α → Bool) (s : List α)
    (h : ∀ c, s.head? = some c → p c = false) : s.dropWhile p = s := by
  cases s with
  | nil => rfl
  | cons a t =>
    rw [List.dropWhile_cons_of_neg]
    simp [h a rfl]

theorem strip_char_eq_self {u : Char} {s : List Char}
    (hh : ∀ c, s.head? = some c → c ≠ u)
    (hl : ∀ c, s.getLast? = some c → c ≠ u) :
    strip_char u s = s := by
  unfold strip_char
  rw [dropWhile_eq_self_of_head? _ s
    (by intro c hc; simpa using hh c hc)]
  rw [dropWhile_eq_self_of_head? _ s.reverse
    (by intro c hc; rw [List.head?_reverse] at hc; simpa using hl c hc)]
  exact List.reverse_reverse s

theorem sub_non_word_eq_self {s : List Char}
    (h : ∀ c ∈ s, is_word_char c = true) : sub_non_word s = s := by
  unfold sub_non_word
  rw [List.map_congr_left (fun c hc => if_pos (h c hc))]
  exact List.map_id s

theorem py_lower_eq_self {s : List Char}
    (h : ∀ c ∈ s, is_clean_char c = true) : py_lower s = s := by
  unfold py_lower
  rw [List.map_congr_left (fun c hc => clean_fixed_toLower (h c hc))]
  exact List.map_id s

theorem clean_column_name_normalized (s : List Char) :
    (∀ c ∈ clean_column_name s, is_clean_char c = true) ∧
    no_double_underscore (clean_column_name s) ∧
    (∀ c, (clean_column_name s).head? = some c → c ≠ '_') ∧
    (∀ c, (clean_column_name s).getLast? = some c → c ≠ '_') := by
  refine ⟨?_, ?_, ?_, ?_⟩
  · intro c hc
    unfold clean_column_name py_lower at hc
    rcases List.mem_map.mp hc with ⟨c0, hc0, rfl⟩
    have h1 : c0 ∈ collapse_underscores (sub_non_word s) := strip_char_mem hc0
    have h2 := mem_collapse _ _ h1
    unfold sub_non_word at h2
    rcases List.mem_map.mp h2 with ⟨c1, _, rfl⟩
    by_cases hw : is_word_char c1 = true
    · rw [if_pos hw]; exact toLower_clean_of_word hw
    · rw [if_neg hw]; decide
  · unfold clean_column_name py_lower no_double_underscore
    rw [List.chain'_map]
    refine List.Chain'.imp ?_
      (no_double_strip (collapse_no_double (sub_non_word s)))
    intro a b hab hlow
    exact hab ⟨toLower_eq_underscore_iff.mp hlow.1, toLower_eq_underscore_iff.mp hlow.2⟩
  · intro c hc
    unfold clean_column_name py_lower at hc
    rw [List.head?_map] at hc
    cases hh : (strip_char '_' (collapse_underscores (sub_non_word s))).head? with
    | none => rw [hh] at hc; exact Option.noConfusion hc
    | some c0 =>
      rw [hh] at hc
      simp only [Option.map_some', Option.some.injEq] at hc
      subst hc
      intro hlow
      exact strip_char_head? hh (toLower_eq_underscore_iff.mp hlow)
  · intro c hc
    unfold clean_column_name py_lower at hc
    rw [List.getLast?_map] at hc
    cases hh : (strip_char '_' (collapse_underscores (sub_non_word s))).getLast? with
    | none => rw [hh] at hc; exact Option.noConfusion hc
    | some c0 =>
      rw [hh] at hc
      simp only [Option.map_some', Option.some.injEq] at hc
      subst hc
      intro hlow
      exact strip_char_getLast? hh (toLower_eq_underscore_iff.mp hlow)

theorem clean_column_name_fixed {t : List Char}
    (hmem : ∀ c ∈ t, is_clean_char c = true)
    (huu : no_double_underscore t)
    (hh : ∀ c, t.head? = some c → c ≠ '_')
    (hl : ∀ c, t.getLast? = some c → c ≠ '_') :
    clean_column_name t = t := by
  unfold clean_column_name
  rw [sub_non_word_eq_self (fun c hc => clean_is_word (hmem c hc))]
  rw [collapse_eq_self t huu]
  rw [strip_char_eq_self hh hl]
  exact py_lower_eq_self hmem

/-- The column-name generator is idempotent. -/
theorem clean_column_name_idempotent (s : List Char) :
    clean_column_name (clean_column_name s) = clean_column_name s := by
  obtain ⟨h1, h2, h3, h4⟩ := clean_column_name_normalized s
  exact clean_column_name_fixed h1 h2 h3 h4

/-- The vocabulary entry "Run Like an Antelope". -/
def run_like_an_antelope : List Char := "Run Like an Antelope".data

/-- The vocabulary entry "Mike's Song", built with an explicit apostrophe
code point (39). -/
def mikes_song_raw : List Char := "Mike".data ++ [Char.ofNat 39] ++ "s Song".data

/-- C3 counterexample: the generator maps "Mike's Song" to "mike_s_song"
(the apostrophe becomes an underscore), not to "mikes_song" as claimed. -/
theorem C3_counterexample :
    clean_column_name mikes_song_raw = "mike_s_song".data ∧
    clean_column_name mikes_song_raw ≠ "mikes_song".data := by
  exact ⟨by decide, by decide⟩

/-- C3 (amended): `clean_column_name` is idempotent, maps
"Run Like an Antelope" to "run_like_an_antelope" and "Mike's Song" to
"mike_s_song" (not "mikes_song"), and the two vocabulary entries do not
collide. -/
theorem C3_clean_column_name_facts :
    (∀ s : List Char, clean_column_name (clean_column_name s) = clean_column_name s) ∧
    clean_column_name run_like_an_antelope = "run_like_an_antelope".data ∧
    clean_column_name mikes_song_raw = "mike_s_song".data ∧
    clean_column_name run_like_an_antelope ≠ clean_column_name mikes_song_raw := by
  exact ⟨clean_column_name_idempotent, by decide, by decide, by decide⟩

/-! ## Setlist data model (entries of the `setlists/showdate` response) -/

/-- One raw setlist entry.  Each field models the corresponding dict key of
the API entry; `none` models an absent key, and the `dict.get` defaults of
the source are applied at each use site. -/
structure SetlistEntry where
  set : Option (List Char)
  song : Option (List Char)
  position : Option Int
  segue : Option (List Char)
deriving DecidableEq, Repr

/-- The placeholder `'Unknown Song'`. -/
def unknown_song : List Char := "Unknown Song".data

/-- The placeholder `'Unknown Set'`. -/
def unknown_set : List Char := "Unknown Set".data

/-- Append `v` to the list stored at key `k`, creating the key at the end
when absent: the model of `sets[set_name].append(...)` over an
insertion-ordered Python dict (or `defaultdict(list)`). -/
def assoc_append {V : Type} (m : List (List Char × List V)) (k : List Char)
    (v : V) : List (List Char × List V) :=
  match m with
  | [] => [(k, [v])]
  | (k0, vs) :: rest =>
    if k0 = k then (k0, vs ++ [v]) :: rest else (k0, vs) :: assoc_append rest k v

/-! ## `format_setlist_from_show` (phish_extractor.py lines 277-313) -/

/-- The rendered name of one entry: the raw song name, with
`f" {segue} "` appended when `segue and segue.strip()` is truthy. -/
def rendered_song (e : SetlistEntry) : List Char :=
  let song_name := e.song.getD unknown_song
  let segue := e.segue.getD []
  if segue ≠ [] ∧ py_strip segue ≠ [] then song_name ++ ' ' :: segue ++ [' ']
  else song_name

/-- The grouping loop of `format_setlist_from_show`: entries are grouped by
`entry.get('set', 'Unknown Set')` into an insertion-ordered dict, each key
holding its `(position, rendered name)` pairs in entry order, with
`entry.get('position', 999)` as position default. -/
def group_by_set (entries : List SetlistEntry) :
    List (List Char × List (Int × List Char)) :=
  entries.foldl (fun sets e =>
    assoc_append sets (e.set.getD unknown_set)
      (e.position.getD 999, rendered_song e)) []

/-- Stable insertion of a pair before the first strictly greater position. -/
def insert_by_position (x : Int × List Char) :
    List (Int × List Char) → List (Int × List Char)
  | [] => [x]
  | y :: rest => if x.1 ≤ y.1 then x :: y :: rest else y :: insert_by_position x rest

/-- Python's stable `list.sort(key=lambda x: x[0])` on position/name pairs,
modelled as stable insertion sort: a stable sort's output is uniquely
determined by the key order, so this computes exactly what the source's
stable sort computes. -/
def sort_by_position (songs : List (Int × List Char)) : List (Int × List Char) :=
  songs.foldr insert_by_position []

/-- Rendering of one grouped set: `f"{set_name}: {', '.join(song_names)}"`
with the songs sorted by position. -/
def render_set (kv : List Char × List (Int × List Char)) : List Char :=
  kv.1 ++ ": ".data ++ List.intercalate ", ".data ((sort_by_position kv.2).map Prod.snd)

/-- Model of `format_setlist_from_show` on a list of entries: group by set,
sort each set by position, join songs with `", "` and sets with `" | "`;
empty input yields the empty string. -/
def format_setlist_from_show (entries : List SetlistEntry) : List Char :=
  if entries = [] then []
  else List.intercalate " | ".data ((group_by_set entries).map render_set)

/-! ## `parse_setlist_for_ml` (phish_extractor.py lines 521-566) -/

/-- One long/ML-format song record. -/
structure MLRow where
  set_name : List Char
  song_position : Nat
  song_name : List Char
  has_segue : Bool
  segue_info : List Char
deriving DecidableEq, Repr

/-- Python `'->' in raw_song`: substring containment of the two-character
arrow sequence, checked position by position. -/
def contains_arrow : List Char → Bool
  | [] => false
  | c :: rest => ((c == '-') && (rest.head? == some '>')) || contains_arrow rest

/-- Python `raw_song.replace('->', '')`: remove every (non-overlapping,
left-to-right) occurrence of the two-character sequence. -/
def replace_arrow : List Char → List Char
  | [] => []
  | '-' :: '>' :: rest => replace_arrow rest
  | c :: rest => c :: replace_arrow rest

/-- Per-song body of the parser's loop: strip the raw chunk, detect a segue
marker (`'>' in raw_song` is tested first, so the `'->'` branch can only
fire when the chunk has `->` but no `>`, which is impossible — it is kept
for fidelity), strip the marker characters from the name, and keep the row
only when the remaining name is non-empty. -/
def parse_song_entry (set_name : List Char) (pos : Nat) (raw : List Char) :
    Option MLRow :=
  let rs := py_strip raw
  let parsed : MLRow :=
    if rs.contains '>' then
      { set_name := set_name, song_position := pos,
        song_name := py_strip (rs.filter (fun c => c != '>')),
        has_segue := true, segue_info := ['>'] }
    else if contains_arrow rs then
      { set_name := set_name, song_position := pos,
        song_name := py_strip (replace_arrow rs),
        has_segue := true, segue_info := ['-', '>'] }
    else
      { set_name := set_name, song_position := pos, song_name := rs,
        has_segue := false, segue_info := [] }
  if parsed.song_name ≠ [] then some parsed else none

/-- One `set_info` chunk of the parser: strip it, require a `':'`, split the
part after the first `':'` on commas, and emit the surviving songs with
1-based positions that count every comma-separated chunk. -/
def parse_set_segment (raw : List Char) : List MLRow :=
  let si := py_strip raw
  match split_first ':' si with
  | none => []
  | some (sn, song_list) =>
    let set_name := py_strip sn
    let raw_songs := split_on_char ',' song_list
    (List.enumFrom 1 raw_songs).filterMap
      (fun pr => parse_song_entry set_name pr.1 pr.2)

/-- Model of `parse_setlist_for_ml`: empty string gives no rows, otherwise
split on `'|'` and process each chunk. -/
def parse_setlist_for_ml (s : List Char) : List MLRow :=
  if s = [] then []
  else (split_on_char '|' s).flatMap parse_set_segment

/-- The C4 test input `"Set 1: Tweezer >, Mike's Song | Encore: Tweezer"`,
with the apostrophe written as code point 39. -/
def c4_setlist : List Char :=
  "Set 1: Tweezer >, Mike".data ++ [Char.ofNat 39] ++ "s Song | Encore: Tweezer".data

/-- The song name `"Mike's Song"`. -/
def c4_mikes_song : List Char := "Mike".data ++ [Char.ofNat 39] ++ "s Song".data

/-- C4 counterexample: the parser yields three rows on the test string, not
four as the claim's count asserts. -/
theorem C4_counterexample :
    (parse_setlist_for_ml c4_setlist).length = 3 ∧
    ¬((parse_setlist_for_ml c4_setlist).length = 4) := by
  exact ⟨by decide, by decide⟩

/-- C4 (amended): parsing `"Set 1: Tweezer >, Mike's Song | Encore: Tweezer"`
yields exactly the three rows (Set 1, 1, "Tweezer", segue, ">"),
(Set 1, 2, "Mike's Song", no segue, "") and
(Encore, 1, "Tweezer", no segue, ""). -/
theorem C4_parse_test_string :
    parse_setlist_for_ml c4_setlist =
      [ { set_name := "Set 1".data, song_position := 1,
          song_name := "Tweezer".data, has_segue := true, segue_info := ['>'] },
        { set_name := "Set 1".data, song_position := 2,
          song_name := c4_mikes_song, has_segue := false, segue_info := [] },
        { set_name := "Encore".data, song_position := 1,
          song_name := "Tweezer".data, has_segue := false, segue_info := [] } ] := by
  decide

/-! ## `extract_song_features_from_setlist` (lines 174-207) and the
enrichment loop of `extract_all_data` (lines 209-275) -/

/-- Per-show song feature bag. -/
structure SongFeatures where
  songs_played : List (List Char)
  set_positions : List (List Char × Int)
  song_counts : List (List Char × Nat)
  has_segues : List (List Char × Bool)
  set_info : List (List Char × List (List Char))
deriving DecidableEq, Repr

/-- The freshly initialised feature bag. -/
def empty_features : SongFeatures := ⟨[], [], [], [], []⟩

/-- Python dict assignment `d[k] = v`: overwrite in place, or append the key
at the end when absent. -/
def assoc_set {V : Type} (m : List (List Char × V)) (k : List Char) (v : V) :
    List (List Char × V) :=
  match m with
  | [] => [(k, v)]
  | (k0, v0) :: rest =>
    if k0 = k then (k0, v) :: rest else (k0, v0) :: assoc_set rest k v

/-- Python `defaultdict(int)` increment `d[k] += 1`. -/
def assoc_bump (m : List (List Char × Nat)) (k : List Char) :
    List (List Char × Nat) :=
  match m with
  | [] => [(k, 1)]
  | (k0, v0) :: rest =>
    if k0 = k then (k0, v0 + 1) :: rest else (k0, v0) :: assoc_bump rest k

/-- Python `set.add`: insert on first sight, keeping insertion order. -/
def songs_insert (s : List (List Char)) (x : List Char) : List (List Char) :=
  if x ∈ s then s else s ++ [x]

/-- The loop body of `extract_song_features_from_setlist`.  The state pairs
the bag under construction with the extractor's `self.all_songs` set.  A
song whose stripped name is empty or equal to `'Unknown Song'` contributes
nothing. -/
def extract_entry (st : SongFeatures × List (List Char)) (e : SetlistEntry) :
    SongFeatures × List (List Char) :=
  let song_name := py_strip (e.song.getD unknown_song)
  let set_name := e.set.getD unknown_set
  let position := e.position.getD 0
  let segue := e.segue.getD []
  if song_name ≠ [] ∧ song_name ≠ unknown_song then
    ({ songs_played := st.1.songs_played ++ [song_name],
       set_positions := assoc_set st.1.set_positions song_name position,
       song_counts := assoc_bump st.1.song_counts song_name,
       has_segues := assoc_set st.1.has_segues song_name
         (decide (segue ≠ [] ∧ py_strip segue ≠ [])),
       set_info := assoc_append st.1.set_info set_name song_name },
     songs_insert st.2 song_name)
  else st

/-- Model of `extract_song_features_from_setlist`, threading the global
song set explicitly. -/
def extract_song_features_from_setlist (all_songs : List (List Char))
    (entries : List SetlistEntry) : SongFeatures × List (List Char) :=
  entries.foldl extract_entry (empty_features, all_songs)

/-- The per-show enrichment sequence of `extract_all_data`, restricted to
its song-feature effects: each element is the show's fetched setlist
(`none` when `get_show_setlist` returned nothing, in which case
`song_features = {}`, observationally the empty bag).  Returns the bags in
show order together with the final global song set. -/
def enrich_shows (all_songs : List (List Char)) :
    List (Option (List SetlistEntry)) →
      List SongFeatures × List (List Char)
  | [] => ([], all_songs)
  | d :: rest =>
    let fs :=
      match d with
      | none => (empty_features, all_songs)
      | some entries => extract_song_features_from_setlist all_songs entries
    let r := enrich_shows fs.2 rest
    (fs.1 :: r.1, r.2)

/-- A song name appears in a feature bag: in `songs_played`, as a key of
`song_counts`, `set_positions` or `has_segues`, or inside a `set_info`
value list. -/
def bag_mentions (f : SongFeatures) (name : List Char) : Prop :=
  name ∈ f.songs_played ∨ (∃ v, (name, v) ∈ f.song_counts) ∨
    (∃ v, (name, v) ∈ f.set_positions) ∨ (∃ v, (name, v) ∈ f.has_segues) ∨
    (∃ k vs, (k, vs) ∈ f.set_info ∧ name ∈ vs)

theorem assoc_set_mem {V : Type} {m : List (List Char × V)} {k k0 : List Char}
    {v : V} (v0 : V) (h : (k, v) ∈ assoc_set m k0 v0) :
    (∃ v1, (k, v1) ∈ m) ∨ k = k0 := by
  induction m with
  | nil =>
    simp only [assoc_set, List.mem_singleton, Prod.mk.injEq] at h
    exact Or.inr h.1
  | cons p rest ih =>
    obtain ⟨k1, v1⟩ := p
    rw [assoc_set] at h
    by_cases hk : k1 = k0
    · rw [if_pos hk] at h
      rcases List.mem_cons.mp h with h1 | h1
      · exact Or.inr (by rw [(Prod.mk.injEq _ _ _ _).mp h1 |>.1, hk])
      · exact Or.inl ⟨v, List.mem_cons_of_mem _ h1⟩
    · rw [if_neg hk] at h
      rcases List.mem_cons.mp h with h1 | h1
      · exact Or.inl ⟨v, List.mem_cons.mpr (Or.inl h1)⟩
      · rcases ih h1 with h2 | h2
        · exact Or.inl ⟨h2.choose, List.mem_cons_of_mem _ h2.choose_spec⟩
        · exact Or.inr h2

theorem assoc_bump_mem {m : List (List Char × Nat)} {k k0 : List Char} {v : Nat}
    (h : (k, v) ∈ assoc_bump m k0) : (∃ v1, (k, v1) ∈ m) ∨ k = k0 := by
  induction m with
  | nil =>
    simp only [assoc_bump, List.mem_singleton, Prod.mk.injEq] at h
    exact Or.inr h.1
  | cons p rest ih =>
    obtain ⟨k1, v1⟩ := p
    rw [assoc_bump] at h
    by_cases hk : k1 = k0
    · rw [if_pos hk] at h
      rcases List.mem_cons.mp h with h1 | h1
      · exact Or.inr (by rw [(Prod.mk.injEq _ _ _ _).mp h1 |>.1, hk])
      · exact Or.inl ⟨v, List.mem_cons_of_mem _ h1⟩
    · rw [if_neg hk] at h
      rcases List.mem_cons.mp h with h1 | h1
      · exact Or.inl ⟨v, List.mem_cons.mpr (Or.inl h1)⟩
      · rcases ih h1 with h2 | h2
        · exact Or.inl ⟨h2.choose, List.mem_cons_of_mem _ h2.choose_spec⟩
        · exact Or.inr h2

theorem assoc_append_mem {V : Type} {m : List (List Char × List V)}
    {k k0 : List Char} {vs : List V} {v0 : V} {x : V}
    (h : (k, vs) ∈ assoc_append m k0 v0) (hx : x ∈ vs) :
    (∃ vs1, (k, vs1) ∈ m ∧ x ∈ vs1) ∨ x = v0 := by
  induction m with
  | nil =>
    simp only [assoc_append, List.mem_singleton, Prod.mk.injEq] at h
    rw [h.2] at hx
    exact Or.inr (List.mem_singleton.mp hx)
  | cons p rest ih =>
    obtain ⟨k1, vs1⟩ := p
    rw [assoc_append] at h
    by_cases hk : k1 = k0
    · rw [if_pos hk] at h
      rcases List.mem_cons.mp h with h1 | h1
      · obtain ⟨hk2, hv2⟩ := (Prod.mk.injEq _ _ _ _).mp h1
        rw [hv2] at hx
        rcases List.mem_append.mp hx with h3 | h3
        · exact Or.inl ⟨vs1, by rw [hk2]; exact List.mem_cons_self _ _, h3⟩
        · exact Or.inr (List.mem_singleton.mp h3)
      · exact Or.inl ⟨vs, List.mem_cons_of_mem _ h1, hx⟩
    · rw [if_neg hk] at h
      rcases List.mem_cons.mp h with h1 | h1
      · exact Or.inl ⟨vs, List.mem_cons.mpr (Or.inl h1), hx⟩
      · rcases ih h1 with ⟨vs2, h2, h3⟩ | h2
        · exact Or.inl ⟨vs2, List.mem_cons_of_mem _ h2, h3⟩
        · exact Or.inr h2

theorem songs_insert_self (s : List (List Char)) (x : List Char) :
    x ∈ songs_insert s x := by
  unfold songs_insert
  by_cases h : x ∈ s
  · rw [if_pos h]; exact h
  · rw [if_neg h]; exact List.mem_append.mpr (Or.inr (List.mem_singleton.mpr rfl))

theorem songs_insert_mono {s : List (List Char)} {y : List Char}
    (x : List Char) (h : y ∈ s) : y ∈ songs_insert s x := by
  unfold songs_insert
  by_cases hx : x ∈ s
  · rw [if_pos hx]; exact h
  · rw [if_neg hx]; exact List.mem_append.mpr (Or.inl h)

theorem bag_mentions_empty (name : List Char) :
    ¬ bag_mentions empty_features name := by
  simp [bag_mentions, empty_features]

theorem extract_entry_mono (st : SongFeatures × List (List Char))
    (e : SetlistEntry) {y : List Char} (h : y ∈ st.2) :
    y ∈ (extract_entry st e).2 := by
  simp only [extract_entry]
  split
  · exact songs_insert_mono _ h
  · exact h

theorem extract_entry_inv (st : SongFeatures × List (List Char))
    (e : SetlistEntry) (hinv : ∀ n, bag_mentions st.1 n → n ∈ st.2) :
    ∀ n, bag_mentions (extract_entry st e).1 n → n ∈ (extract_entry st e).2 := by
  intro n hn
  simp only [extract_entry] at hn ⊢
  by_cases hc : py_strip (e.song.getD unknown_song) ≠ [] ∧
      py_strip (e.song.getD unknown_song) ≠ unknown_song
  · rw [if_pos hc] at hn ⊢
    simp only [bag_mentions] at hn
    rcases hn with h1 | ⟨v, h2⟩ | ⟨v, h3⟩ | ⟨v, h4⟩ | ⟨k, vs, h5, h6⟩
    · rcases List.mem_append.mp h1 with h | h
      · exact songs_insert_mono _ (hinv n (Or.inl h))
      · rw [List.mem_singleton.mp h]; exact songs_insert_self _ _
    · rcases assoc_bump_mem h2 with ⟨v1, h⟩ | h
      · exact songs_insert_mono _ (hinv n (Or.inr (Or.inl ⟨v1, h⟩)))
      · rw [h]; exact songs_insert_self _ _
    · rcases assoc_set_mem _ h3 with ⟨v1, h⟩ | h
      · exact songs_insert_mono _ (hinv n (Or.inr (Or.inr (Or.inl ⟨v1, h⟩))))
      · rw [h]; exact songs_insert_self _ _
    · rcases assoc_set_mem _ h4 with ⟨v1, h⟩ | h
      · exact songs_insert_mono _
          (hinv n (Or.inr (Or.inr (Or.inr (Or.inl ⟨v1, h⟩)))))
      · rw [h]; exact songs_insert_self _ _
    · rcases assoc_append_mem h5 h6 with ⟨vs1, h, h'⟩ | h
      · exact songs_insert_mono _
          (hinv n (Or.inr (Or.inr (Or.inr (Or.inr ⟨k, vs1, h, h'⟩)))))
      · rw [h]; exact songs_insert_self _ _
  · rw [if_neg hc] at hn ⊢
    exact hinv n hn

theorem extract_fold_mono :
    ∀ (entries : List SetlistEntry) (st : SongFeatures × List (List Char))
      {y : List Char}, y ∈ st.2 → y ∈ (entries.foldl extract_entry st).2 := by
  intro entries
  induction entries with
  | nil => intro st y h; exact h
  | cons e rest ih =>
    intro st y h
    rw [List.foldl_cons]
    exact ih _ (extract_entry_mono st e h)

theorem extract_fold_inv :
    ∀ (entries : List SetlistEntry) (st : SongFeatures × List (List Char)),
      (∀ n, bag_mentions st.1 n → n ∈ st.2) →
      ∀ n, bag_mentions (entries.foldl extract_entry st).1 n →
        n ∈ (entries.foldl extract_entry st).2 := by
  intro entries
  induction entries with
  | nil => intro st h n hn; exact h n hn
  | cons e rest ih =>
    intro st h n hn
    rw [List.foldl_cons] at hn ⊢
    exact ih _ (extract_entry_inv st e h) n hn

theorem enrich_shows_mono :
    ∀ (ds : List (Option (List SetlistEntry))) (S : List (List Char))
      {y : List Char}, y ∈ S → y ∈ (enrich_shows S ds).2 := by
  intro ds
  induction ds with
  | nil => intro S y h; exact h
  | cons d rest ih =>
    intro S y h
    cases d with
    | none => exact ih S h
    | some entries =>
      exact ih _ (extract_fold_mono entries (empty_features, S) h)

/-- C6: after the enrichment phase, the global song set is a superset of
every song name appearing in any enriched show's feature bag — its
`songs_played` list, its `song_counts`, `set_positions` and `has_segues`
keys, and its `set_info` value lists. -/
theorem C6_universe_superset (ds : List (Option (List SetlistEntry)))
    (init : List (List Char)) (f : SongFeatures)
    (hf : f ∈ (enrich_shows init ds).1) (name : List Char)
    (hn : bag_mentions f name) : name ∈ (enrich_shows init ds).2 := by
  induction ds generalizing init with
  | nil => simp [enrich_shows] at hf
  | cons d rest ih =>
    cases d with
    | none =>
      simp only [enrich_shows] at hf ⊢
      rcases List.mem_cons.mp hf with h | h
      · exact absurd (h ▸ hn) (bag_mentions_empty name)
      · exact ih init h
    | some entries =>
      simp only [enrich_shows, extract_song_features_from_setlist] at hf ⊢
      rcases List.mem_cons.mp hf with h | h
      · subst h
        refine enrich_shows_mono rest _ ?_
        refine extract_fold_inv entries (empty_features, init) ?_ name hn
        intro n hne
        exact absurd hne (bag_mentions_empty n)
      · exact ih _ h

/-- A one-show demonstration input for the C6 witness. -/
def c6_demo : List (Option (List SetlistEntry)) :=
  [some [⟨some "Set 1".data, some "Tweezer".data, some 1, some []⟩]]

theorem C6_universe_superset_witness :
    "Tweezer".data ∈ (enrich_shows [] c6_demo).2 :=
  C6_universe_superset c6_demo []
    ⟨["Tweezer".data], [("Tweezer".data, 1)], [("Tweezer".data, 1)],
      [("Tweezer".data, false)], [("Set 1".data, ["Tweezer".data])]⟩
    (by decide) "Tweezer".data (Or.inl (by decide))

/-! ## `get_all_shows` (phish_extractor.py lines 91-139) -/

/-- A raw show record of the `shows/showyear` response; only the fields read
by `get_all_shows` and the enrichment loop are modelled. -/
structure RawShow where
  artist_name : Option (List Char)
  showdate : List Char
deriving DecidableEq, Repr

/-- The `error` field of a year response, as tested by
`response.get('error') == False`. -/
inductive ErrorField where
  | fls
  | truthy (msg : List Char)
deriving DecidableEq, Repr

/-- The JSON envelope of one year request as seen by `get_all_shows`:
presence of the `data` key and the `error` field. -/
structure ShowsResponse where
  data : Option (List RawShow)
  error : ErrorField
deriving DecidableEq, Repr

/-- The fixed target artist of the filter. -/
def target_artist : List Char := "phish".data

/-- One year of `get_all_shows`: when `make_request` returned a response
with a `data` key and `error == False`, keep exactly the records whose
lowercased `artist_name` (default `''`) equals `'phish'`; otherwise the
year contributes nothing.  The function is parameterised by the per-year
result of `make_request`. -/
def process_year (resp : Nat → Option ShowsResponse) (year : Nat) :
    List RawShow :=
  match resp year with
  | some r =>
    match r.data, r.error with
    | some year_shows, ErrorField.fls =>
      year_shows.filter (fun sh => py_lower (sh.artist_name.getD []) == target_artist)
    | _, _ => []
  | none => []

/-- Model of `get_all_shows`: years walked in batches of five
(`range(start_year, end_year + 1, 5)`, then `range(year_start,
min(year_start + 4, end_year) + 1)`); the batching only affects pacing
sleeps, each year appends its filtered records in order. -/
def get_all_shows (resp : Nat → Option ShowsResponse)
    (start_year end_year : Nat) : List RawShow :=
  (List.range' start_year ((end_year + 1 - start_year + 4) / 5) 5).flatMap
    (fun year_start =>
      (List.range' year_start (min (year_start + 4) end_year + 1 - year_start)).flatMap
        (process_year resp))

/-- C9: every record returned by the catalog fetcher has an artist name that
case-insensitively equals the fixed target `"phish"`; all other records are
dropped. -/
theorem C9_artist_filter (resp : Nat → Option ShowsResponse)
    (start_year end_year : Nat) (rec : RawShow)
    (h : rec ∈ get_all_shows resp start_year end_year) :
    py_lower (rec.artist_name.getD []) = target_artist := by
  unfold get_all_shows at h
  rw [List.mem_flatMap] at h
  obtain ⟨ys, _, h⟩ := h
  rw [List.mem_flatMap] at h
  obtain ⟨y, _, h⟩ := h
  unfold process_year at h
  cases hr : resp y with
  | none => rw [hr] at h; exact absurd h (List.not_mem_nil rec)
  | some r =>
    rw [hr] at h
    obtain ⟨rd, re⟩ := r
    cases rd with
    | none => cases re <;> exact absurd h (List.not_mem_nil rec)
    | some year_shows =>
      cases re with
      | truthy msg => exact absurd h (List.not_mem_nil rec)
      | fls =>
        have := (List.mem_filter.mp h).2
        exact eq_of_beq this

/-- A constant response used by the C9 witness. -/
def c9_resp : Nat → Option ShowsResponse :=
  fun _ => some { data := some [⟨some "Phish".data, "2021-08-08".data⟩],
                  error := ErrorField.fls }

theorem C9_artist_filter_witness :
    py_lower ((⟨some "Phish".data, "2021-08-08".data⟩ : RawShow).artist_name.getD []) =
      target_artist :=
  C9_artist_filter c9_resp 2021 2021 ⟨some "Phish".data, "2021-08-08".data⟩
    (by decide)

/-! ## `save_to_csv_ml_format` (lines 457-519) -/

/-- An enriched show dict as built by `extract_all_data` (lines 250-266):
the twelve descriptive string fields, the formatted setlist string, and the
feature bag. -/
structure EnrichedShow where
  show_id : List Char
  date : List Char
  artist_name : List Char
  venue : List Char
  city : List Char
  state : List Char
  country : List Char
  tour_name : List Char
  rating : List Char
  reviews : List Char
  venue_id : List Char
  permalink : List Char
  setlist : List Char
  song_features : SongFeatures
deriving DecidableEq, Repr

/-- The `base_row` dict of the exporters: the twelve descriptive fields
copied from the show. -/
structure BaseRow where
  show_id : List Char
  date : List Char
  artist_name : List Char
  venue : List Char
  city : List Char
  state : List Char
  country : List Char
  tour_name : List Char
  rating : List Char
  reviews : List Char
  venue_id : List Char
  permalink : List Char
deriving DecidableEq, Repr

/-- `base_row` construction. -/
def base_row_of (sh : EnrichedShow) : BaseRow :=
  ⟨sh.show_id, sh.date, sh.artist_name, sh.venue, sh.city, sh.state,
   sh.country, sh.tour_name, sh.rating, sh.reviews, sh.venue_id, sh.permalink⟩

/-- Rows contributed by one show to the ML export: when the formatted
setlist string is truthy the parsed songs each yield a row
(`ml_row = base_row.copy(); ml_row.update(song_data)`), otherwise a single
row with blank song fields and position 0 is emitted. -/
def ml_rows_for_show (sh : EnrichedShow) : List (BaseRow × MLRow) :=
  if sh.setlist ≠ [] then
    (parse_setlist_for_ml sh.setlist).map (fun r => (base_row_of sh, r))
  else
    [(base_row_of sh,
      { set_name := [], song_position := 0, song_name := [],
        has_segue := false, segue_info := [] })]

/-- The full row list written by `save_to_csv_ml_format`. -/
def save_to_csv_ml_format_rows (shows : List EnrichedShow) :
    List (BaseRow × MLRow) :=
  shows.flatMap ml_rows_for_show

/-- A show whose raw setlist has one entry whose `song` key holds the empty
string: its formatted setlist is the nonempty string `"Set 1: "`, which
parses back to zero songs. -/
def c8_show : EnrichedShow :=
  { show_id := "1".data, date := "1994-06-26".data, artist_name := "Phish".data,
    venue := [], city := [], state := [], country := [], tour_name := [],
    rating := [], reviews := [], venue_id := [], permalink := [],
    setlist := format_setlist_from_show [⟨some "Set 1".data, some [], some 1, none⟩],
    song_features := empty_features }

/-- C8 counterexample: a show whose formatted setlist string is the nonempty
`"Set 1: "` (produced by the formatter itself from an entry with an empty
song name) contributes zero rows to the ML export, so not every show in the
input sequence is represented by at least one row. -/
theorem C8_counterexample :
    c8_show.setlist = "Set 1: ".data ∧
    save_to_csv_ml_format_rows [c8_show] = [] := by
  exact ⟨by decide, by decide⟩

/-- C8 (amended): a show whose formatted setlist string is empty contributes
exactly one row to the ML export, with empty `set_name` and `song_name`
fields and `song_position` 0; a show with a nonempty setlist contributes one
row per parsed song, which can be zero rows, so such a show need not be
represented in the export. -/
theorem C8_empty_setlist_single_row (sh : EnrichedShow) (h : sh.setlist = []) :
    save_to_csv_ml_format_rows [sh] =
      [(base_row_of sh,
        { set_name := [], song_position := 0, song_name := [],
          has_segue := false, segue_info := [] })] := by
  simp only [save_to_csv_ml_format_rows, ml_rows_for_show, List.flatMap_cons,
    List.flatMap_nil, List.append_nil]
  rw [if_neg (by simp [h])]

theorem C8_empty_setlist_single_row_witness :
    save_to_csv_ml_format_rows
        [{ show_id := "2".data, date := [], artist_name := [], venue := [],
           city := [], state := [], country := [], tour_name := [], rating := [],
           reviews := [], venue_id := [], permalink := [], setlist := [],
           song_features := empty_features }] =
      [(base_row_of
          { show_id := "2".data, date := [], artist_name := [], venue := [],
            city := [], state := [], country := [], tour_name := [], rating := [],
            reviews := [], venue_id := [], permalink := [], setlist := [],
            song_features := empty_features },
        { set_name := [], song_position := 0, song_name := [],
          has_segue := false, segue_info := [] })] :=
  C8_empty_setlist_single_row _ rfl

/-! ## `save_to_csv_wide_format` (lines 356-446) -/

/-- A cell of the wide-format row: string, integer or boolean. -/
inductive CellValue where
  | s (v : List Char)
  | n (v : Nat)
  | b (v : Bool)
deriving DecidableEq, Repr

/-- Python dict lookup `m[k]` / `m.get(k)`. -/
def assoc_lookup {V : Type} (m : List (List Char × V)) (k : List Char) :
    Option V :=
  match m with
  | [] => none
  | (k0, v) :: rest => if k0 = k then some v else assoc_lookup rest k

/-- Python `k in m` on a dict. -/
def assoc_contains {V : Type} (m : List (List Char × V)) (k : List Char) : Bool :=
  m.any (fun p => p.1 == k)

/-- The `wide_row` dict literal of base show information. -/
def wide_base_row (sh : EnrichedShow) : List (List Char × CellValue) :=
  [("show_id".data, CellValue.s sh.show_id), ("date".data, CellValue.s sh.date),
   ("artist_name".data, CellValue.s sh.artist_name),
   ("venue".data, CellValue.s sh.venue), ("city".data, CellValue.s sh.city),
   ("state".data, CellValue.s sh.state), ("country".data, CellValue.s sh.country),
   ("tour_name".data, CellValue.s sh.tour_name),
   ("rating".data, CellValue.s sh.rating), ("reviews".data, CellValue.s sh.reviews),
   ("venue_id".data, CellValue.s sh.venue_id),
   ("permalink".data, CellValue.s sh.permalink)]

/-- The summary statistics: total songs, distinct songs, number of sets, and
the encore flag (`'Encore' in set_info or 'E' in set_info`). -/
def wide_stats_row (sh : EnrichedShow) : List (List Char × CellValue) :=
  let f := sh.song_features
  assoc_set (assoc_set (assoc_set (assoc_set (wide_base_row sh)
    "total_songs".data (CellValue.n f.songs_played.length))
    "unique_songs".data (CellValue.n f.songs_played.dedup.length))
    "total_sets".data (CellValue.n f.set_info.length))
    "has_encore".data
    (CellValue.b (assoc_contains f.set_info "Encore".data ||
      assoc_contains f.set_info "E".data))

/-- Column name `f'songs_in_{set_name.lower().replace(" ", "_")}'`. -/
def set_column_name (set_name : List Char) : List Char :=
  "songs_in_".data ++ (py_lower set_name).map (fun c => if c = ' ' then '_' else c)

/-- The per-set count columns. -/
def wide_set_cols_row (sh : EnrichedShow) : List (List Char × CellValue) :=
  sh.song_features.set_info.foldl
    (fun r kv => assoc_set r (set_column_name kv.1) (CellValue.n kv.2.length))
    (wide_stats_row sh)

/-- Per-song body of the wide-format column loop: the binary indicator
column, and — when the song was played more than once — the `_count`
column. -/
def wide_song_step (f : SongFeatures) (r : List (List Char × CellValue))
    (song : List Char) : List (List Char × CellValue) :=
  let cs := clean_column_name song
  let r' := assoc_set r ("song_".data ++ cs)
    (CellValue.n (if song ∈ f.songs_played then 1 else 0))
  match assoc_lookup f.song_counts song with
  | some cnt =>
    if 1 < cnt then
      assoc_set r' ("song_".data ++ cs ++ "_count".data) (CellValue.n cnt)
    else r'
  | none => r'

/-- The full wide-format row of one show, iterating the global song
universe in a fixed order (a Python set iteration order). -/
def save_to_csv_wide_row (all_songs : List (List Char)) (sh : EnrichedShow) :
    List (List Char × CellValue) :=
  all_songs.foldl (wide_song_step sh.song_features) (wide_set_cols_row sh)

/-- The sixteen fixed column names present before the per-set and per-song
columns are added. -/
def wide_fixed_keys : List (List Char) :=
  ["show_id".data, "date".data, "artist_name".data, "venue".data, "city".data,
   "state".data, "country".data, "tour_name".data, "rating".data,
   "reviews".data, "venue_id".data, "permalink".data, "total_songs".data,
   "unique_songs".data, "total_sets".data, "has_encore".data]

theorem assoc_lookup_set_eq {V : Type} (m : List (List Char × V))
    (k : List Char) (v : V) : assoc_lookup (assoc_set m k v) k = some v := by
  induction m with
  | nil => simp [assoc_set, assoc_lookup]
  | cons p rest ih =>
    obtain ⟨k0, v0⟩ := p
    rw [assoc_set]
    by_cases h : k0 = k
    · rw [if_pos h, assoc_lookup, if_pos h]
    · rw [if_neg h, assoc_lookup, if_neg h]
      exact ih

theorem assoc_lookup_set_ne {V : Type} (m : List (List Char × V))
    {k k' : List Char} (v : V) (h : k ≠ k') :
    assoc_lookup (assoc_set m k v) k' = assoc_lookup m k' := by
  induction m with
  | nil => simp [assoc_set, assoc_lookup, h]
  | cons p rest ih =>
    obtain ⟨k0, v0⟩ := p
    rw [assoc_set]
    by_cases h0 : k0 = k
    · rw [if_pos h0, assoc_lookup, assoc_lookup, if_neg (h0 ▸ h), if_neg (h0 ▸ h)]
    · rw [if_neg h0, assoc_lookup, assoc_lookup]
      by_cases h1 : k0 = k'
      · rw [if_pos h1, if_pos h1]
      · rw [if_neg h1, if_neg h1]
        exact ih

theorem assoc_lookup_eq_none {V : Type} {m : List (List Char × V)}
    {k : List Char} (h : ∀ kv ∈ m, kv.1 ≠ k) : assoc_lookup m k = none := by
  induction m with
  | nil => rfl
  | cons p rest ih =>
    rw [assoc_lookup, if_neg (h p (List.mem_cons_self p rest))]
    exact ih (fun kv hkv => h kv (List.mem_cons_of_mem p hkv))

theorem ne_append_of_getElem {p k : List Char} (i : Nat) (hi : i < p.length)
    (hne : k[i]? ≠ p[i]?) : ∀ cs, k ≠ p ++ cs := by
  intro cs h
  apply hne
  rw [h, List.getElem?_append_left hi]

theorem song_key_ne_count_key (cs : List Char) :
    "song_".data ++ cs ≠ "song_".data ++ cs ++ "_count".data := by
  intro h
  have hl := congrArg List.length h
  simp [List.length_append] at hl

theorem set_col_ne_song_col (sn cs : List Char) :
    set_column_name sn ≠ "song_".data ++ cs := by
  intro h
  unfold set_column_name at h
  have h4 := congrArg (fun l => l[4]?) h
  simp only at h4
  rw [List.getElem?_append_left (by decide), List.getElem?_append_left (by decide)] at h4
  exact absurd h4 (by decide)

theorem fixed_key_ne_song_col {k : List Char} (hk : k ∈ wide_fixed_keys)
    (cs : List Char) : k ≠ "song_".data ++ cs := by
  simp only [wide_fixed_keys, List.mem_cons, List.not_mem_nil, or_false] at hk
  rcases hk with h | h | h | h | h | h | h | h | h | h | h | h | h | h | h | h <;>
    subst h
  · exact ne_append_of_getElem 1 (by decide) (by decide) cs
  · exact ne_append_of_getElem 0 (by decide) (by decide) cs
  · exact ne_append_of_getElem 0 (by decide) (by decide) cs
  · exact ne_append_of_getElem 0 (by decide) (by decide) cs
  · exact ne_append_of_getElem 0 (by decide) (by decide) cs
  · exact ne_append_of_getElem 1 (by decide) (by decide) cs
  · exact ne_append_of_getElem 2 (by decide) (by decide) cs
  · exact ne_append_of_getElem 0 (by decide) (by decide) cs
  · exact ne_append_of_getElem 0 (by decide) (by decide) cs
  · exact ne_append_of_getElem 0 (by decide) (by decide) cs
  · exact ne_append_of_getElem 0 (by decide) (by decide) cs
  · exact ne_append_of_getElem 0 (by decide) (by decide) cs
  · exact ne_append_of_getElem 0 (by decide) (by decide) cs
  · exact ne_append_of_getElem 0 (by decide) (by decide) cs
  · exact ne_append_of_getElem 0 (by decide) (by decide) cs
  · exact ne_append_of_getElem 0 (by decide) (by decide) cs

theorem wide_base_mem {sh : EnrichedShow} {k : List Char} {v : CellValue}
    (h : (k, v) ∈ wide_base_row sh) : k ∈ wide_fixed_keys := by
  simp only [wide_base_row, List.mem_cons, List.not_mem_nil, or_false,
    Prod.mk.injEq] at h
  simp only [wide_fixed_keys, List.mem_cons, List.not_mem_nil, or_false]
  rcases h with h|h|h|h|h|h|h|h|h|h|h|h <;> simp [h.1]

theorem wide_stats_mem {sh : EnrichedShow} {k : List Char} {v : CellValue}
    (h : (k, v) ∈ wide_stats_row sh) : k ∈ wide_fixed_keys := by
  unfold wide_stats_row at h
  simp only at h
  rcases assoc_set_mem _ h with ⟨v1, h1⟩ | rfl
  · rcases assoc_set_mem _ h1 with ⟨v2, h2⟩ | rfl
    · rcases assoc_set_mem _ h2 with ⟨v3, h3⟩ | rfl
      · rcases assoc_set_mem _ h3 with ⟨v4, h4⟩ | rfl
        · exact wide_base_mem h4
        · decide
      · decide
    · decide
  · decide

theorem fold_set_cols_mem :
    ∀ (l : List (List Char × List (List Char)))
      (r : List (List Char × CellValue)) {k : List Char} {v : CellValue},
      (k, v) ∈ l.foldl
        (fun r kv => assoc_set r (set_column_name kv.1) (CellValue.n kv.2.length)) r →
      (∃ v1, (k, v1) ∈ r) ∨ ∃ sn, k = set_column_name sn := by
  intro l
  induction l with
  | nil => intro r k v h; exact Or.inl ⟨v, h⟩
  | cons kv rest ih =>
    intro r k v h
    rw [List.foldl_cons] at h
    rcases ih _ h with ⟨v1, h1⟩ | h1
    · rcases assoc_set_mem _ h1 with ⟨v2, h2⟩ | rfl
      · exact Or.inl ⟨v2, h2⟩
      · exact Or.inr ⟨kv.1, rfl⟩
    · exact Or.inr h1

theorem wide_set_cols_mem {sh : EnrichedShow} {k : List Char} {v : CellValue}
    (h : (k, v) ∈ wide_set_cols_row sh) :
    k ∈ wide_fixed_keys ∨ ∃ sn, k = set_column_name sn := by
  unfold wide_set_cols_row at h
  rcases fold_set_cols_mem _ _ h with ⟨v1, h1⟩ | h1
  · exact Or.inl (wide_stats_mem h1)
  · exact Or.inr h1

theorem wide_song_step_lookup_other (f : SongFeatures)
    (r : List (List Char × CellValue)) (s k : List Char)
    (h1 : "song_".data ++ clean_column_name s ≠ k)
    (h2 : "song_".data ++ clean_column_name s ++ "_count".data ≠ k) :
    assoc_lookup (wide_song_step f r s) k = assoc_lookup r k := by
  unfold wide_song_step
  simp only
  split
  · split
    · rw [assoc_lookup_set_ne _ _ h2]
      exact assoc_lookup_set_ne _ _ h1
    · exact assoc_lookup_set_ne _ _ h1
  · exact assoc_lookup_set_ne _ _ h1

theorem wide_song_step_lookup_ind (f : SongFeatures)
    (r : List (List Char × CellValue)) (s : List Char) :
    assoc_lookup (wide_song_step f r s) ("song_".data ++ clean_column_name s) =
      some (CellValue.n (if s ∈ f.songs_played then 1 else 0)) := by
  unfold wide_song_step
  simp only
  split
  · split
    · rw [assoc_lookup_set_ne _ _ (Ne.symm (song_key_ne_count_key _))]
      exact assoc_lookup_set_eq _ _ _
    · exact assoc_lookup_set_eq _ _ _
  · exact assoc_lookup_set_eq _ _ _

theorem wide_song_step_lookup_cnt (f : SongFeatures)
    (r : List (List Char × CellValue)) (s : List Char)
    (hnone : assoc_lookup r
      ("song_".data ++ clean_column_name s ++ "_count".data) = none) :
    assoc_lookup (wide_song_step f r s)
        ("song_".data ++ clean_column_name s ++ "_count".data) =
      (match assoc_lookup f.song_counts s with
       | some c => if 1 < c then some (CellValue.n c) else none
       | none => none) := by
  unfold wide_song_step
  simp only
  cases hl : assoc_lookup f.song_counts s with
  | none =>
    simp only [hl]
    rw [assoc_lookup_set_ne _ _ (song_key_ne_count_key _)]
    exact hnone
  | some cnt =>
    simp only [hl]
    by_cases hc : 1 < cnt
    · rw [if_pos hc, if_pos hc]
      exact assoc_lookup_set_eq _ _ _
    · rw [if_neg hc, if_neg hc, assoc_lookup_set_ne _ _ (song_key_ne_count_key _)]
      exact hnone

theorem wide_fold_lookup_other (f : SongFeatures) :
    ∀ (l : List (List Char)) (r : List (List Char × CellValue)) (k : List Char),
      (∀ s ∈ l, "song_".data ++ clean_column_name s ≠ k ∧
        "song_".data ++ clean_column_name s ++ "_count".data ≠ k) →
      assoc_lookup (l.foldl (wide_song_step f) r) k = assoc_lookup r k := by
  intro l
  induction l with
  | nil => intro r k _; rfl
  | cons s rest ih =>
    intro r k h
    rw [List.foldl_cons,
      ih _ k (fun s' hs' => h s' (List.mem_cons_of_mem s hs'))]
    exact wide_song_step_lookup_other f r s k
      (h s (List.mem_cons_self s rest)).1 (h s (List.mem_cons_self s rest)).2

theorem wide_set_cols_lookup_song_none (sh : EnrichedShow) (cs : List Char) :
    assoc_lookup (wide_set_cols_row sh) ("song_".data ++ cs) = none := by
  apply assoc_lookup_eq_none
  intro kv hkv
  obtain ⟨k0, v0⟩ := kv
  rcases wide_set_cols_mem hkv with h | ⟨sn, h⟩
  · exact fixed_key_ne_song_col h cs
  · rw [h]; exact set_col_ne_song_col sn cs

theorem song_ind_key_inj {c1 c2 : List Char}
    (h : "song_".data ++ c1 = "song_".data ++ c2) : c1 = c2 :=
  List.append_cancel_left h

theorem song_cnt_key_inj {c1 c2 : List Char}
    (h : "song_".data ++ c1 ++ "_count".data = "song_".data ++ c2 ++ "_count".data) :
    c1 = c2 := by
  rw [List.append_assoc, List.append_assoc] at h
  exact List.append_cancel_right (List.append_cancel_left h)

/-- C7 (amended): in the wide export, provided the cleaned column names of
the universe's songs are pairwise distinct and no cleaned name equals
another cleaned name with `"_count"` appended (dict-key collisions would
otherwise overwrite columns), every song of the universe gets a binary
indicator column that is 1 exactly when the song occurs in the show's
`songs_played` list, and a `song_<clean>_count` column entry exists for the
show exactly when the show's per-song count exceeds 1, in which case it
equals that count. -/
theorem C7_wide_song_columns (all_songs : List (List Char)) (sh : EnrichedShow)
    (hnodup : all_songs.Nodup)
    (hinj : ∀ s1 ∈ all_songs, ∀ s2 ∈ all_songs,
      clean_column_name s1 = clean_column_name s2 → s1 = s2)
    (hcnt : ∀ s1 ∈ all_songs, ∀ s2 ∈ all_songs,
      clean_column_name s1 ≠ clean_column_name s2 ++ "_count".data)
    (song : List Char) (hs : song ∈ all_songs) :
    assoc_lookup (save_to_csv_wide_row all_songs sh)
        ("song_".data ++ clean_column_name song) =
      some (CellValue.n (if song ∈ sh.song_features.songs_played then 1 else 0)) ∧
    assoc_lookup (save_to_csv_wide_row all_songs sh)
        ("song_".data ++ clean_column_name song ++ "_count".data) =
      (match assoc_lookup sh.song_features.song_counts song with
       | some c => if 1 < c then some (CellValue.n c) else none
       | none => none) := by
  obtain ⟨l1, l2, hdecomp⟩ := List.append_of_mem hs
  subst hdecomp
  have hnd := List.nodup_append.mp hnodup
  have hsong_not_l1 : song ∉ l1 :=
    fun hmem => hnd.2.2 hmem (List.mem_cons_self _ _)
  have hsong_not_l2 : song ∉ l2 := (List.nodup_cons.mp hnd.2.1).1
  have hmem1 : ∀ s' ∈ l1, s' ∈ l1 ++ song :: l2 :=
    fun s' h => List.mem_append_left _ h
  have hmem2 : ∀ s' ∈ l2, s' ∈ l1 ++ song :: l2 :=
    fun s' h => List.mem_append_right _ (List.mem_cons_of_mem _ h)
  unfold save_to_csv_wide_row
  rw [List.foldl_append, List.foldl_cons]
  have huntouched2 : ∀ s' ∈ l2,
      "song_".data ++ clean_column_name s' ≠ "song_".data ++ clean_column_name song ∧
      "song_".data ++ clean_column_name s' ++ "_count".data ≠
        "song_".data ++ clean_column_name song := by
    intro s' hs'
    constructor
    · intro h
      exact hsong_not_l2 (hinj s' (hmem2 s' hs') song hs (song_ind_key_inj h) ▸ hs')
    · intro h
      rw [List.append_assoc] at h
      exact hcnt song hs s' (hmem2 s' hs') (song_ind_key_inj h.symm)
  have huntouched2' : ∀ s' ∈ l2,
      "song_".data ++ clean_column_name s' ≠
        "song_".data ++ clean_column_name song ++ "_count".data ∧
      "song_".data ++ clean_column_name s' ++ "_count".data ≠
        "song_".data ++ clean_column_name song ++ "_count".data := by
    intro s' hs'
    constructor
    · intro h
      rw [List.append_assoc] at h
      exact hcnt s' (hmem2 s' hs') song hs (song_ind_key_inj h)
    · intro h
      exact hsong_not_l2 (hinj s' (hmem2 s' hs') song hs (song_cnt_key_inj h) ▸ hs')
  have huntouched1 : ∀ s' ∈ l1,
      "song_".data ++ clean_column_name s' ≠
        "song_".data ++ clean_column_name song ++ "_count".data ∧
      "song_".data ++ clean_column_name s' ++ "_count".data ≠
        "song_".data ++ clean_column_name song ++ "_count".data := by
    intro s' hs'
    constructor
    · intro h
      rw [List.append_assoc] at h
      exact hcnt s' (hmem1 s' hs') song hs (song_ind_key_inj h)
    · intro h
      exact hsong_not_l1 (hinj s' (hmem1 s' hs') song hs (song_cnt_key_inj h) ▸ hs')
  constructor
  · rw [wide_fold_lookup_other _ l2 _ _ huntouched2]
    exact wide_song_step_lookup_ind _ _ _
  · rw [wide_fold_lookup_other _ l2 _ _ huntouched2']
    apply wide_song_step_lookup_cnt
    rw [wide_fold_lookup_other _ l1 _ _ huntouched1, List.append_assoc]
    exact wide_set_cols_lookup_song_none sh _

/-- A feature bag in which only the song `"A B"` was played. -/
def c7_features : SongFeatures :=
  ⟨["A B".data], [("A B".data, 1)], [("A B".data, 1)],
   [("A B".data, false)], [("Set 1".data, ["A B".data])]⟩

/-- A show for the C7 counterexample. -/
def c7_show : EnrichedShow :=
  { show_id := "7".data, date := [], artist_name := [], venue := [], city := [],
    state := [], country := [], tour_name := [], rating := [], reviews := [],
    venue_id := [], permalink := [], setlist := "Set 1: A B".data,
    song_features := c7_features }

/-- C7 counterexample: the distinct universe songs `"A B"` and `"A.B"` both
clean to the column name `a_b`; with universe iteration order
`["A B", "A.B"]`, the unplayed `"A.B"` overwrites the indicator column of
the played `"A B"`, which therefore reads 0 instead of 1. -/
theorem C7_counterexample :
    "A B".data ∈ (["A B".data, "A.B".data] : List (List Char)) ∧
    "A B".data ∈ c7_show.song_features.songs_played ∧
    assoc_lookup (save_to_csv_wide_row ["A B".data, "A.B".data] c7_show)
        ("song_".data ++ clean_column_name "A B".data) =
      some (CellValue.n 0) := by
  exact ⟨by decide, by decide, by decide⟩

/-- A feature bag in which `"Divided Sky"` was played twice. -/
def c7w_features : SongFeatures :=
  ⟨["Divided Sky".data, "Divided Sky".data], [("Divided Sky".data, 1)],
   [("Divided Sky".data, 2)], [("Divided Sky".data, false)],
   [("Set 1".data, ["Divided Sky".data, "Divided Sky".data])]⟩

/-- A show for the C7 witness. -/
def c7w_show : EnrichedShow :=
  { show_id := "8".data, date := [], artist_name := [], venue := [], city := [],
    state := [], country := [], tour_name := [], rating := [], reviews := [],
    venue_id := [], permalink := [],
    setlist := "Set 1: Divided Sky, Divided Sky".data,
    song_features := c7w_features }

theorem C7_wide_song_columns_witness :
    assoc_lookup (save_to_csv_wide_row ["Divided Sky".data] c7w_show)
        ("song_".data ++ clean_column_name "Divided Sky".data) =
      some (CellValue.n
        (if "Divided Sky".data ∈ c7w_show.song_features.songs_played then 1 else 0)) ∧
    assoc_lookup (save_to_csv_wide_row ["Divided Sky".data] c7w_show)
        ("song_".data ++ clean_column_name "Divided Sky".data ++ "_count".data) =
      (match assoc_lookup c7w_show.song_features.song_counts "Divided Sky".data with
       | some c => if 1 < c then some (CellValue.n c) else none
       | none => none) :=
  C7_wide_song_columns ["Divided Sky".data] c7w_show (by decide) (by decide)
    (by decide) "Divided Sky".data (by decide)

/-! ## C10: set ordering of `format_setlist_from_show` -/

/-- Specification-side definition, following the claim's words: the set
labels of the entries, each listed at its first occurrence, skipping labels
already seen. -/
def first_occurrence_from (seen : List (List Char)) :
    List SetlistEntry → List (List Char)
  | [] => []
  | e :: rest =>
    let l := e.set.getD unknown_set
    if l ∈ seen then first_occurrence_from seen rest
    else l :: first_occurrence_from (seen ++ [l]) rest

/-- Specification-side definition: the order in which each set label first
occurs in the entry list. -/
def first_occurrence_labels (entries : List SetlistEntry) : List (List Char) :=
  first_occurrence_from [] entries

theorem assoc_append_keys {V : Type} (m : List (List Char × List V))
    (k : List Char) (v : V) :
    (assoc_append m k v).map Prod.fst =
      if k ∈ m.map Prod.fst then m.map Prod.fst else m.map Prod.fst ++ [k] := by
  induction m with
  | nil => simp [assoc_append]
  | cons p rest ih =>
    obtain ⟨k0, vs0⟩ := p
    rw [assoc_append]
    by_cases h : k0 = k
    · subst h
      rw [if_pos rfl]
      simp
    · rw [if_neg h]
      simp only [List.map_cons, List.mem_cons]
      rw [ih]
      by_cases hm : k ∈ rest.map Prod.fst
      · rw [if_pos hm, if_pos (Or.inr hm)]
      · rw [if_neg hm, if_neg (by rintro (h1 | h1); exact h h1.symm; exact hm h1)]
        simp

theorem group_fold_keys :
    ∀ (entries : List SetlistEntry) (m : List (List Char × List (Int × List Char))),
      (entries.foldl (fun sets e =>
        assoc_append sets (e.set.getD unknown_set)
          (e.position.getD 999, rendered_song e)) m).map Prod.fst =
      m.map Prod.fst ++ first_occurrence_from (m.map Prod.fst) entries := by
  intro entries
  induction entries with
  | nil => intro m; simp [first_occurrence_from]
  | cons e rest ih =>
    intro m
    rw [List.foldl_cons, ih]
    simp only [first_occurrence_from]
    by_cases h : e.set.getD unknown_set ∈ m.map Prod.fst
    · rw [if_pos h, assoc_append_keys, if_pos h]
    · rw [if_neg h, assoc_append_keys, if_neg h]
      rw [List.append_assoc]
      rfl

/-- C10: the formatted setlist string renders the grouped sets in the order
in which each set label first occurs in the entry list, and formatting is
deterministic: equal entry lists produce equal strings. -/
theorem C10_format_set_order (entries e2 : List SetlistEntry)
    (hdet : entries = e2) :
    (group_by_set entries).map Prod.fst = first_occurrence_labels entries ∧
    format_setlist_from_show entries =
      (if entries = [] then []
       else List.intercalate " | ".data ((group_by_set entries).map render_set)) ∧
    format_setlist_from_show entries = format_setlist_from_show e2 := by
  refine ⟨?_, rfl, by rw [hdet]⟩
  unfold group_by_set first_occurrence_labels
  rw [group_fold_keys entries []]
  rfl

/-- Demonstration entries for the C10 witness. -/
def c10_demo : List SetlistEntry :=
  [⟨some "Set 1".data, some "Tweezer".data, some 1, none⟩,
   ⟨some "Encore".data, some "Tweezer".data, some 1, none⟩,
   ⟨some "Set 1".data, some "Foam".data, some 2, none⟩]

theorem C10_format_set_order_witness :
    (group_by_set c10_demo).map Prod.fst = first_occurrence_labels c10_demo ∧
    format_setlist_from_show c10_demo =
      (if c10_demo = [] then []
       else List.intercalate " | ".data ((group_by_set c10_demo).map render_set)) ∧
    format_setlist_from_show c10_demo = format_setlist_from_show c10_demo :=
  C10_format_set_order c10_demo c10_demo rfl

/-! ## C5: string infrastructure for the round-trip property -/

/-- Strip the characters satisfying `p` from both ends. -/
def strip_while (p : Char → Bool) (s : List Char) : List Char :=
  ((s.dropWhile p).reverse.dropWhile p).reverse

theorem py_strip_eq_strip_while (s : List Char) :
    py_strip s = strip_while is_py_space s := rfl

theorem strip_while_mem {p : Char → Bool} {s : List Char} {c : Char}
    (h : c ∈ strip_while p s) : c ∈ s := by
  unfold strip_while at h
  rw [List.mem_reverse] at h
  have h2 : c ∈ (s.dropWhile p).reverse := (List.dropWhile_suffix _).sublist.mem h
  rw [List.mem_reverse] at h2
  exact (List.dropWhile_suffix _).sublist.mem h2

theorem strip_while_getLast? {p : Char → Bool} {s : List Char} {c : Char}
    (h : (strip_while p s).getLast? = some c) : p c = false := by
  unfold strip_while at h
  rw [← List.head?_reverse, List.reverse_reverse] at h
  have := List.head?_dropWhile_not p (s.dropWhile p).reverse
  rw [h] at this
  exact this

theorem strip_while_head? {p : Char → Bool} {s : List Char} {c : Char}
    (h : (strip_while p s).head? = some c) : p c = false := by
  unfold strip_while at h
  rw [List.head?_reverse] at h
  set b := (s.dropWhile p).reverse.dropWhile p with hb
  have hbne : b ≠ [] := by
    intro hnil
    rw [hnil] at h
    exact Option.noConfusion h
  rw [getLast?_of_suffix (List.dropWhile_suffix _) hbne, ← List.head?_reverse,
    List.reverse_reverse] at h
  have := List.head?_dropWhile_not p s
  rw [h] at this
  exact this

theorem strip_while_eq_self {p : Char → Bool} {s : List Char}
    (hh : ∀ c, s.head? = some c → p c = false)
    (hl : ∀ c, s.getLast? = some c → p c = false) :
    strip_while p s = s := by
  unfold strip_while
  rw [dropWhile_eq_self_of_head? _ s hh]
  rw [dropWhile_eq_self_of_head? _ s.reverse
    (by intro c hc; rw [List.head?_reverse] at hc; exact hl c hc)]
  exact List.reverse_reverse s

theorem dropWhile_all {p : Char → Bool} {sp : List Char}
    (h : ∀ c ∈ sp, p c = true) : sp.dropWhile p = [] := by
  induction sp with
  | nil => rfl
  | cons c rest ih =>
    rw [List.dropWhile_cons_of_pos (h c (List.mem_cons_self c rest))]
    exact ih (fun c' hc' => h c' (List.mem_cons_of_mem c hc'))

theorem py_rstrip_append_spaces (s : List Char) {sp : List Char}
    (h : ∀ c ∈ sp, is_py_space c = true) : py_rstrip (s ++ sp) = py_rstrip s := by
  unfold py_rstrip
  rw [List.reverse_append, List.dropWhile_append,
    dropWhile_all (fun c hc => h c (List.mem_reverse.mp hc))]
  simp

theorem py_lstrip_spaces_append {sp : List Char} (s : List Char)
    (h : ∀ c ∈ sp, is_py_space c = true) : py_lstrip (sp ++ s) = py_lstrip s := by
  unfold py_lstrip
  rw [List.dropWhile_append, dropWhile_all h]
  simp

theorem py_strip_spaces_append {sp : List Char} (s : List Char)
    (h : ∀ c ∈ sp, is_py_space c = true) : py_strip (sp ++ s) = py_strip s := by
  unfold py_strip
  rw [py_lstrip_spaces_append s h]

theorem py_strip_append_spaces (s : List Char) {sp : List Char}
    (h : ∀ c ∈ sp, is_py_space c = true) : py_strip (s ++ sp) = py_strip s := by
  unfold py_strip py_lstrip
  rw [List.dropWhile_append]
  by_cases he : (s.dropWhile is_py_space).isEmpty
  · rw [if_pos he, dropWhile_all h]
    rw [List.isEmpty_iff] at he
    rw [he]
  · rw [if_neg he]
    exact py_rstrip_append_spaces _ h

theorem py_strip_single_space_append (s : List Char) :
    py_strip (' ' :: s) = py_strip s :=
  @py_strip_spaces_append [' '] s (by intro c hc; simp at hc; rw [hc]; rfl)

theorem py_strip_decomp (s : List Char) :
    ∃ f b, (∀ c ∈ f, is_py_space c = true) ∧ (∀ c ∈ b, is_py_space c = true) ∧
      s = f ++ py_strip s ++ b := by
  refine ⟨s.takeWhile is_py_space,
    ((py_lstrip s).reverse.takeWhile is_py_space).reverse, ?_, ?_, ?_⟩
  · intro c hc; exact List.mem_takeWhile_imp hc
  · intro c hc
    rw [List.mem_reverse] at hc
    exact List.mem_takeWhile_imp hc
  · unfold py_strip py_rstrip py_lstrip
    have h2 : s.dropWhile is_py_space =
        ((s.dropWhile is_py_space).reverse.dropWhile is_py_space).reverse ++
          ((s.dropWhile is_py_space).reverse.takeWhile is_py_space).reverse := by
      conv_lhs => rw [← List.reverse_reverse (s.dropWhile is_py_space)]
      conv_lhs => rw [← List.takeWhile_append_dropWhile is_py_space
        (s.dropWhile is_py_space).reverse]
      rw [List.reverse_append]
    conv_lhs => rw [← List.takeWhile_append_dropWhile is_py_space s, h2]
    rw [List.append_assoc]

theorem mem_py_strip_iff {c : Char} (hc : is_py_space c = false) (s : List Char) :
    c ∈ py_strip s ↔ c ∈ s := by
  constructor
  · intro h
    rw [py_strip_eq_strip_while] at h
    exact strip_while_mem h
  · intro h
    obtain ⟨f, b, hf, hb, hs⟩ := py_strip_decomp s
    rw [hs] at h
    rcases List.mem_append.mp h with h1 | h1
    · rcases List.mem_append.mp h1 with h2 | h2
      · rw [hf c h2] at hc; exact Bool.noConfusion hc
      · exact h2
    · rw [hb c h1] at hc; exact Bool.noConfusion hc

theorem py_strip_idem (s : List Char) : py_strip (py_strip s) = py_strip s := by
  rw [py_strip_eq_strip_while (py_strip s)]
  apply strip_while_eq_self
  · intro c hc
    exact @strip_while_head? is_py_space s c hc
  · intro c hc
    exact @strip_while_getLast? is_py_space s c hc

theorem py_rstrip_append_left {a : List Char} (b : List Char)
    (hl : ∀ d, a.getLast? = some d → is_py_space d = false) :
    py_rstrip (a ++ b) = a ++ py_rstrip b := by
  unfold py_rstrip
  rw [List.reverse_append, List.dropWhile_append]
  have hda : a.reverse.dropWhile is_py_space = a.reverse := by
    apply dropWhile_eq_self_of_head?
    intro c hc
    rw [List.head?_reverse] at hc
    exact hl c hc
  by_cases he : (b.reverse.dropWhile is_py_space).isEmpty
  · rw [if_pos he, hda, List.reverse_reverse]
    rw [List.isEmpty_iff] at he
    rw [he, List.reverse_nil, List.append_nil]
  · rw [if_neg he, List.reverse_append, List.reverse_reverse]

theorem py_strip_append_of_stripped {a : List Char} (b : List Char)
    (ha : py_strip a = a) (hne : a ≠ []) :
    py_strip (a ++ b) = a ++ py_rstrip b := by
  have hh : ∀ c, a.head? = some c → is_py_space c = false := by
    intro c hc
    apply @strip_while_head? is_py_space a c
    rw [← py_strip_eq_strip_while, ha]
    exact hc
  have hl : ∀ d, a.getLast? = some d → is_py_space d = false := by
    intro d hd
    apply @strip_while_getLast? is_py_space a d
    rw [← py_strip_eq_strip_while, ha]
    exact hd
  unfold py_strip
  have hstep : py_lstrip (a ++ b) = a ++ b := by
    unfold py_lstrip
    obtain ⟨c, a2, rfl⟩ := List.exists_cons_of_ne_nil hne
    rw [List.cons_append, List.dropWhile_cons_of_neg (by simp [hh c rfl])]
  rw [hstep]
  exact py_rstrip_append_left b hl

theorem intercalate_single (sep p : List Char) : List.intercalate sep [p] = p := by
  simp [List.intercalate]

theorem intercalate_cons₂ (sep p q : List Char) (rest : List (List Char)) :
    List.intercalate sep (p :: q :: rest) =
      p ++ sep ++ List.intercalate sep (q :: rest) := by
  simp [List.intercalate, List.append_assoc]

theorem split_on_char_ne_nil (sep : Char) (s : List Char) :
    split_on_char sep s ≠ [] := by
  cases s with
  | nil => simp [split_on_char]
  | cons c rest =>
    rw [split_on_char]
    cases h : split_on_char sep rest with
    | nil => simp
    | cons t ts =>
      by_cases hc : c = sep
      · simp [hc]
      · simp [hc]

theorem split_on_char_no_sep {sep : Char} {s : List Char} (h : sep ∉ s) :
    split_on_char sep s = [s] := by
  induction s with
  | nil => rfl
  | cons c rest ih =>
    rw [split_on_char, ih (fun hm => h (List.mem_cons_of_mem c hm))]
    have hc : ¬ c = sep := fun hc => h (hc ▸ List.mem_cons_self c rest)
    simp [hc]

theorem split_on_char_cons_sep (sep : Char) (y : List Char) :
    split_on_char sep (sep :: y) = [] :: split_on_char sep y := by
  rw [split_on_char]
  cases hr : split_on_char sep y with
  | nil => exact absurd hr (split_on_char_ne_nil sep y)
  | cons t ts => simp

theorem split_on_char_cons_ne {sep c : Char} (y : List Char) (hc : c ≠ sep) :
    ∃ t ts, split_on_char sep y = t :: ts ∧
      split_on_char sep (c :: y) = (c :: t) :: ts := by
  cases hr : split_on_char sep y with
  | nil => exact absurd hr (split_on_char_ne_nil sep y)
  | cons t ts =>
    refine ⟨t, ts, rfl, ?_⟩
    rw [split_on_char, hr]
    simp [hc]

theorem split_on_char_append_left {sep : Char} {a : List Char} {x t : List Char}
    {ts : List (List Char)} (h : sep ∉ a) (hx : split_on_char sep x = t :: ts) :
    split_on_char sep (a ++ x) = (a ++ t) :: ts := by
  induction a with
  | nil => simpa using hx
  | cons c a2 ih =>
    have hcne : c ≠ sep := fun hc => h (by rw [hc]; exact List.mem_cons_self sep a2)
    have hih := ih (fun hm => h (List.mem_cons_of_mem c hm))
    obtain ⟨t2, ts2, h1, h2⟩ := @split_on_char_cons_ne sep c (a2 ++ x) hcne
    rw [hih] at h1
    obtain ⟨rfl, rfl⟩ := (List.cons.injEq _ _ _ _).mp h1
    rw [List.cons_append, h2]
    rfl

theorem split_on_char_sep_cons {sep : Char} {a : List Char} (rest : List Char)
    (h : sep ∉ a) :
    split_on_char sep (a ++ sep :: rest) = a :: split_on_char sep rest := by
  cases hr : split_on_char sep rest with
  | nil => exact absurd hr (split_on_char_ne_nil sep rest)
  | cons t ts =>
    have hx : split_on_char sep (sep :: rest) = [] :: t :: ts := by
      rw [split_on_char_cons_sep, hr]
    rw [split_on_char_append_left h hx, List.append_nil]

theorem py_strip_all_spaces {sp : List Char}
    (h : ∀ c ∈ sp, is_py_space c = true) : py_strip sp = [] := by
  unfold py_strip py_lstrip
  rw [dropWhile_all h]
  rfl

theorem map_strip_split_cons {sep c : Char} (hc : c ≠ sep)
    (hsp : is_py_space c = true) (x : List Char) :
    (split_on_char sep (c :: x)).map py_strip =
      (split_on_char sep x).map py_strip := by
  obtain ⟨t, ts, h1, h2⟩ := split_on_char_cons_ne x hc
  rw [h1, h2, List.map_cons, List.map_cons]
  have : py_strip (c :: t) = py_strip t :=
    @py_strip_spaces_append [c] t (by intro d hd; simp at hd; rw [hd]; exact hsp)
  rw [this]

theorem map_strip_split_spaces_append {sep : Char} {post : List Char}
    (hpost : ∀ c ∈ post, is_py_space c = true ∧ c ≠ sep) (x : List Char) :
    (split_on_char sep (post ++ x)).map py_strip =
      (split_on_char sep x).map py_strip := by
  induction post with
  | nil => rfl
  | cons c post2 ih =>
    rw [List.cons_append,
      map_strip_split_cons (hpost c (List.mem_cons_self c post2)).2
        (hpost c (List.mem_cons_self c post2)).1]
    exact ih (fun d hd => hpost d (List.mem_cons_of_mem c hd))

theorem split_on_char_append_no_sep {sep : Char} (x : List Char) {sp : List Char}
    (hsp : sep ∉ sp) :
    ∃ init last, split_on_char sep x = init ++ [last] ∧
      split_on_char sep (x ++ sp) = init ++ [last ++ sp] := by
  induction x with
  | nil =>
    refine ⟨[], [], rfl, ?_⟩
    rw [List.nil_append, split_on_char_no_sep hsp]
    rfl
  | cons c x2 ih =>
    obtain ⟨init, last, h1, h2⟩ := ih
    by_cases hc : c = sep
    · subst hc
      refine ⟨[] :: init, last, ?_, ?_⟩
      · rw [split_on_char_cons_sep, h1]
        rfl
      · rw [List.cons_append, split_on_char_cons_sep, h2]
        rfl
    · obtain ⟨t, ts, ht1, ht2⟩ := split_on_char_cons_ne x2 hc
      obtain ⟨t2, ts2, hs1, hs2⟩ := split_on_char_cons_ne (x2 ++ sp) hc
      cases init with
      | nil =>
        simp only [List.nil_append] at h1 h2
        rw [h1] at ht1
        obtain ⟨rfl, rfl⟩ := (List.cons.injEq _ _ _ _).mp ht1
        rw [h2] at hs1
        obtain ⟨rfl, rfl⟩ := (List.cons.injEq _ _ _ _).mp hs1
        exact ⟨[], c :: last, ht2, by rw [List.cons_append, hs2]; rfl⟩
      | cons i0 init2 =>
        rw [List.cons_append] at h1 h2
        rw [h1] at ht1
        obtain ⟨rfl, rfl⟩ := (List.cons.injEq _ _ _ _).mp ht1
        rw [h2] at hs1
        obtain ⟨rfl, rfl⟩ := (List.cons.injEq _ _ _ _).mp hs1
        refine ⟨(c :: i0) :: init2, last, ?_, ?_⟩
        · rw [ht2]; rfl
        · rw [List.cons_append, hs2]; rfl

theorem map_strip_split_append_spaces {sep : Char} (x : List Char)
    {sp : List Char} (hsp : ∀ c ∈ sp, is_py_space c = true) (hsep : sep ∉ sp) :
    (split_on_char sep (x ++ sp)).map py_strip =
      (split_on_char sep x).map py_strip := by
  obtain ⟨init, last, h1, h2⟩ := split_on_char_append_no_sep x hsep
  rw [h1, h2, List.map_append, List.map_append, List.map_singleton,
    List.map_singleton, py_strip_append_spaces last hsp]

theorem map_strip_split_intercalate {sep : Char} {pre post : List Char}
    (hpre : ∀ c ∈ pre, is_py_space c = true ∧ c ≠ sep)
    (hpost : ∀ c ∈ post, is_py_space c = true ∧ c ≠ sep) :
    ∀ parts : List (List Char), parts ≠ [] →
      (∀ part ∈ parts, sep ∉ part) →
      (split_on_char sep
          (List.intercalate (pre ++ sep :: post) parts)).map py_strip =
        parts.map py_strip := by
  intro parts
  induction parts with
  | nil => intro h; exact absurd rfl h
  | cons p rest ih =>
    intro _ hparts
    cases rest with
    | nil =>
      rw [intercalate_single,
        split_on_char_no_sep (hparts p (List.mem_cons_self _ _))]
    | cons q rest2 =>
      rw [intercalate_cons₂]
      have hsep_notin : sep ∉ p ++ pre := by
        intro hm
        rcases List.mem_append.mp hm with hm | hm
        · exact hparts p (List.mem_cons_self _ _) hm
        · exact (hpre sep hm).2 rfl
      rw [List.append_assoc p (pre ++ sep :: post),
        List.append_assoc pre (sep :: post), List.cons_append,
        ← List.append_assoc p pre]
      rw [split_on_char_sep_cons _ hsep_notin, List.map_cons]
      rw [map_strip_split_spaces_append hpost,
        ih (by simp) (fun part hp => hparts part (List.mem_cons_of_mem p hp))]
      rw [py_strip_append_spaces p (fun c hc => (hpre c hc).1)]
      simp

theorem split_first_append {sep : Char} {a : List Char} (b : List Char)
    (h : sep ∉ a) : split_first sep (a ++ sep :: b) = some (a, b) := by
  induction a with
  | nil => rw [List.nil_append, split_first, if_pos rfl]
  | cons c a2 ih =>
    have hc : ¬ c = sep := fun hc => h (by rw [hc]; exact List.mem_cons_self sep a2)
    rw [List.cons_append, split_first, if_neg hc]
    simp only [ih (fun hm => h (List.mem_cons_of_mem c hm))]

theorem contains_eq_false_of_not_mem {a : Char} {l : List Char} (h : a ∉ l) :
    l.contains a = false := by
  rw [Bool.eq_false_iff]
  intro hc
  exact h (List.elem_iff.mp hc)

theorem contains_eq_true_of_mem {a : Char} {l : List Char} (h : a ∈ l) :
    l.contains a = true :=
  List.elem_eq_true_of_mem h

theorem contains_arrow_eq_false {s : List Char} (h : '>' ∉ s) :
    contains_arrow s = false := by
  induction s with
  | nil => rfl
  | cons c rest ih =>
    rw [contains_arrow, ih (fun hm => h (List.mem_cons_of_mem c hm)), Bool.or_false]
    cases hh : rest.head? with
    | none => simp [hh]
    | some d =>
      have hd : d ∈ rest := List.mem_of_mem_head? (by rw [hh]; rfl)
      have hne : ¬ d = '>' := fun hdd => h (List.mem_cons_of_mem c (hdd ▸ hd))
      simp [hh, hne]

theorem py_rstrip_decomp (x : List Char) :
    ∃ sp, (∀ c ∈ sp, is_py_space c = true) ∧ x = py_rstrip x ++ sp := by
  refine ⟨(x.reverse.takeWhile is_py_space).reverse, ?_, ?_⟩
  · intro c hc
    rw [List.mem_reverse] at hc
    exact List.mem_takeWhile_imp hc
  · unfold py_rstrip
    conv_lhs => rw [← List.reverse_reverse x,
      ← List.takeWhile_append_dropWhile is_py_space x.reverse]
    rw [List.reverse_append]

theorem map_strip_split_rstrip {sep : Char} (hsep : is_py_space sep = false)
    (x : List Char) :
    (split_on_char sep (py_rstrip x)).map py_strip =
      (split_on_char sep x).map py_strip := by
  obtain ⟨sp, hsp, hx⟩ := py_rstrip_decomp x
  conv_rhs => rw [hx]
  rw [map_strip_split_append_spaces _ hsp
    (fun hm => by rw [hsp sep hm] at hsep; exact Bool.noConfusion hsep)]

theorem filter_keep_spaces_strip {p : Char → Bool}
    (hp : ∀ c, is_py_space c = true → p c = true) (x : List Char) :
    py_strip ((py_strip x).filter p) = py_strip (x.filter p) := by
  obtain ⟨f, b, hf, hb, hs⟩ := py_strip_decomp x
  conv_rhs => rw [hs]
  rw [List.filter_append, List.filter_append]
  rw [List.filter_eq_self.mpr (fun c hc => hp c (hf c hc))]
  rw [List.filter_eq_self.mpr (fun c hc => hp c (hb c hc))]
  rw [py_strip_append_spaces _ hb, py_strip_spaces_append _ hf]

/-- Well-formedness of one entry for the round-trip property: the stripped
song name is non-empty and not the placeholder; the song name contains none
of the parser's delimiter characters; the set label is already stripped and
free of the set/song delimiters; the segue marker is blank (falsy after
stripping, hence not rendered) or a non-empty run of `>` characters. -/
def entry_roundtrip_ok (e : SetlistEntry) : Prop :=
  py_strip (e.song.getD unknown_song) ≠ [] ∧
  py_strip (e.song.getD unknown_song) ≠ unknown_song ∧
  '|' ∉ e.song.getD unknown_song ∧ ',' ∉ e.song.getD unknown_song ∧
  ':' ∉ e.song.getD unknown_song ∧ '>' ∉ e.song.getD unknown_song ∧
  py_strip (e.set.getD unknown_set) = e.set.getD unknown_set ∧
  '|' ∉ e.set.getD unknown_set ∧ ':' ∉ e.set.getD unknown_set ∧
  (py_strip (e.segue.getD []) = [] ∨
    (e.segue.getD [] ≠ [] ∧ ∀ c ∈ e.segue.getD [], c = '>'))

instance (e : SetlistEntry) : Decidable (entry_roundtrip_ok e) := by
  unfold entry_roundtrip_ok
  infer_instance

theorem parse_song_entry_ext (k : List Char) (i : Nat) {r1 r2 : List Char}
    (h : py_strip r1 = py_strip r2) :
    parse_song_entry k i r1 = parse_song_entry k i r2 := by
  unfold parse_song_entry
  rw [h]

theorem parse_song_entry_rendered (k : List Char) (i : Nat) (e : SetlistEntry)
    (hok : entry_roundtrip_ok e) :
    ∃ hs si, parse_song_entry k i (rendered_song e) =
      some { set_name := k, song_position := i,
             song_name := py_strip (e.song.getD unknown_song),
             has_segue := hs, segue_info := si } := by
  obtain ⟨hne, _, _, _, _, hsgt, _, _, _, hseg⟩ := hok
  have hred_t : ∀ A B : MLRow, (if true = true then A else B) = A :=
    fun A B => if_pos rfl
  have hred_f : ∀ A B : MLRow, (if false = true then A else B) = B :=
    fun A B => if_neg (by simp)
  by_cases hcond : e.segue.getD [] ≠ [] ∧ py_strip (e.segue.getD []) ≠ []
  · have hall : ∀ c ∈ e.segue.getD [], c = '>' := by
      rcases hseg with h1 | h1
      · exact absurd h1 hcond.2
      · exact h1.2
    obtain ⟨c0, seg2, hsegeq⟩ := List.exists_cons_of_ne_nil hcond.1
    have hc0 : c0 = '>' := hall c0 (by rw [hsegeq]; exact List.mem_cons_self _ _)
    refine ⟨true, ['>'], ?_⟩
    simp only [parse_song_entry, rendered_song, if_pos hcond]
    have hmem : '>' ∈ py_strip ((e.song.getD unknown_song ++
        ' ' :: e.segue.getD []) ++ [' ']) := by
      rw [mem_py_strip_iff (by decide)]
      refine List.mem_append.mpr (Or.inl ?_)
      refine List.mem_append.mpr (Or.inr ?_)
      rw [hsegeq, hc0]
      exact List.mem_cons_of_mem _ (List.mem_cons_self _ _)
    rw [contains_eq_true_of_mem hmem, hred_t]
    have hname : py_strip ((py_strip ((e.song.getD unknown_song ++
        ' ' :: e.segue.getD []) ++ [' '])).filter (fun c => c != '>')) =
        py_strip (e.song.getD unknown_song) := by
      rw [filter_keep_spaces_strip
        (fun c hc => by
          rw [bne_iff_ne]
          intro hcc
          rw [hcc] at hc
          exact Bool.noConfusion hc)]
      rw [List.filter_append, List.filter_append]
      rw [List.filter_eq_self.mpr (fun c hc => by
        rw [bne_iff_ne]
        intro hcc
        rw [hcc] at hc
        exact hsgt hc)]
      have hfseg : List.filter (fun c => c != '>') (' ' :: e.segue.getD []) =
          [' '] := by
        rw [List.filter_cons_of_pos (by decide)]
        rw [List.filter_eq_nil_iff.mpr (fun c hc hp => by
          rw [hall c hc] at hp
          simp at hp)]
      rw [hfseg]
      have hsp2 : List.filter (fun c => c != '>') [' '] = [' '] := by decide
      rw [hsp2]
      rw [py_strip_append_spaces _ (by intro c hc; simp at hc; rw [hc]; rfl)]
      rw [py_strip_append_spaces _ (by intro c hc; simp at hc; rw [hc]; rfl)]
    rw [hname]
    split
    · rfl
    · next hfalse => exact absurd hne hfalse
  · refine ⟨false, [], ?_⟩
    simp only [parse_song_entry, rendered_song, if_neg hcond]
    have hgt : '>' ∉ py_strip (e.song.getD unknown_song) :=
      fun hm => hsgt ((mem_py_strip_iff (by decide) _).mp hm)
    rw [contains_eq_false_of_not_mem hgt, contains_arrow_eq_false hgt,
      hred_f, hred_f]
    split
    · rfl
    · next hfalse => exact absurd hne hfalse

theorem py_strip_append_colon (k : List Char) (hk : py_strip k = k) :
    py_strip (k ++ [':']) = k ++ [':'] := by
  rw [py_strip_eq_strip_while]
  apply strip_while_eq_self
  · intro c hc
    cases k with
    | nil =>
      simp only [List.nil_append, List.head?_cons, Option.some.injEq] at hc
      rw [← hc]
      rfl
    | cons k0 krest =>
      rw [List.cons_append, List.head?_cons, Option.some.injEq] at hc
      rw [← hc]
      exact @strip_while_head? is_py_space (k0 :: krest) k0
        (by rw [← py_strip_eq_strip_while, hk]; rfl)
  · intro c hc
    rw [List.getLast?_concat] at hc
    rw [← Option.some.injEq _ _ |>.mp hc]
    rfl

theorem rendered_song_no_char (e : SetlistEntry) (hok : entry_roundtrip_ok e)
    {c : Char} (hc1 : c ∉ e.song.getD unknown_song)
    (hc2 : c ≠ '>') (hc3 : c ≠ ' ') : c ∉ rendered_song e := by
  obtain ⟨_, _, _, _, _, _, _, _, _, hseg⟩ := hok
  unfold rendered_song
  intro hm
  by_cases hcond : e.segue.getD [] ≠ [] ∧ py_strip (e.segue.getD []) ≠ []
  · rw [if_pos hcond] at hm
    have hall : ∀ d ∈ e.segue.getD [], d = '>' := by
      rcases hseg with h1 | h1
      · exact absurd h1 hcond.2
      · exact h1.2
    rcases List.mem_append.mp hm with h | h
    · rcases List.mem_append.mp h with h2 | h2
      · exact hc1 h2
      · rcases List.mem_cons.mp h2 with h3 | h3
        · exact hc3 h3
        · exact hc2 (hall c h3)
    · exact hc3 (List.mem_singleton.mp h)
  · rw [if_neg hcond] at hm
    exact hc1 hm

theorem parse_set_segment_ext {r1 r2 : List Char}
    (h : py_strip r1 = py_strip r2) :
    parse_set_segment r1 = parse_set_segment r2 := by
  unfold parse_set_segment
  rw [h]

theorem flatMap_pss_ext : ∀ {l1 l2 : List (List Char)},
    l1.map py_strip = l2.map py_strip →
    l1.flatMap parse_set_segment = l2.flatMap parse_set_segment := by
  intro l1
  induction l1 with
  | nil =>
    intro l2 h
    cases l2 with
    | nil => rfl
    | cons q l2' => exact absurd h (by simp)
  | cons p l1' ih =>
    intro l2 h
    cases l2 with
    | nil => exact absurd h (by simp)
    | cons q l2' =>
      simp only [List.map_cons, List.cons.injEq] at h
      rw [List.flatMap_cons, List.flatMap_cons, parse_set_segment_ext h.1,
        ih h.2]

theorem enum_filterMap_ext (k : List Char) :
    ∀ (l1 l2 : List (List Char)) (i : Nat),
      l1.map py_strip = l2.map py_strip →
      (List.enumFrom i l1).filterMap (fun pr => parse_song_entry k pr.1 pr.2) =
        (List.enumFrom i l2).filterMap (fun pr => parse_song_entry k pr.1 pr.2) := by
  intro l1
  induction l1 with
  | nil =>
    intro l2 i h
    cases l2 with
    | nil => rfl
    | cons q l2' => exact absurd h (by simp)
  | cons p l1' ih =>
    intro l2 i h
    cases l2 with
    | nil => exact absurd h (by simp)
    | cons q l2' =>
      simp only [List.map_cons, List.cons.injEq] at h
      rw [List.enumFrom, List.enumFrom, List.filterMap_cons, List.filterMap_cons]
      rw [show parse_song_entry k i p = parse_song_entry k i q from
        parse_song_entry_ext k i h.1]
      rw [ih l2' (i + 1) h.2]

theorem parse_set_segment_render (k : List Char) (vs : List (Int × List Char))
    (hk_strip : py_strip k = k) (hk_colon : ':' ∉ k)
    (hne : (sort_by_position vs).map Prod.snd ≠ [])
    (hnosep : ∀ r ∈ (sort_by_position vs).map Prod.snd, ',' ∉ r) :
    parse_set_segment (render_set (k, vs)) =
      (List.enumFrom 1 ((sort_by_position vs).map Prod.snd)).filterMap
        (fun pr => parse_song_entry k pr.1 pr.2) := by
  have hdata : ": ".data = [':', ' '] := rfl
  have hrearr : render_set (k, vs) =
      (k ++ [':']) ++
        (' ' :: List.intercalate ", ".data ((sort_by_position vs).map Prod.snd)) := by
    unfold render_set
    simp [hdata, List.append_assoc]
  rw [hrearr]
  unfold parse_set_segment
  rw [py_strip_append_of_stripped _ (py_strip_append_colon k hk_strip) (by simp)]
  have hsf : split_first ':' ((k ++ [':']) ++
      py_rstrip (' ' :: List.intercalate ", ".data
        ((sort_by_position vs).map Prod.snd))) =
      some (k, py_rstrip (' ' :: List.intercalate ", ".data
        ((sort_by_position vs).map Prod.snd))) := by
    rw [List.append_assoc]
    exact split_first_append _ hk_colon
  simp only [hsf]
  rw [hk_strip]
  have hmaps : (split_on_char ',' (py_rstrip (' ' :: List.intercalate ", ".data
      ((sort_by_position vs).map Prod.snd)))).map py_strip =
      ((sort_by_position vs).map Prod.snd).map py_strip := by
    rw [map_strip_split_rstrip (by decide)]
    rw [show (' ' :: List.intercalate ", ".data ((sort_by_position vs).map Prod.snd)) =
      [' '] ++ List.intercalate ", ".data ((sort_by_position vs).map Prod.snd) from rfl]
    rw [map_strip_split_spaces_append
      (by intro c hc; simp at hc; rw [hc]; exact ⟨rfl, by decide⟩)]
    rw [show ", ".data = [] ++ ',' :: [' '] from rfl]
    exact map_strip_split_intercalate (by simp)
      (by intro c hc; simp at hc; rw [hc]; exact ⟨rfl, by decide⟩)
      ((sort_by_position vs).map Prod.snd) hne hnosep
  exact enum_filterMap_ext k _ _ 1 hmaps

theorem insert_by_position_perm (x : Int × List Char)
    (l : List (Int × List Char)) :
    List.Perm (insert_by_position x l) (x :: l) := by
  induction l with
  | nil => exact List.Perm.refl _
  | cons y rest ih =>
    rw [insert_by_position]
    by_cases h : x.1 ≤ y.1
    · rw [if_pos h]
    · rw [if_neg h]
      exact List.Perm.trans (List.Perm.cons y ih) (List.Perm.swap x y rest)

theorem sort_by_position_perm (l : List (Int × List Char)) :
    List.Perm (sort_by_position l) l := by
  induction l with
  | nil => exact List.Perm.refl _
  | cons x rest ih =>
    exact (insert_by_position_perm x _).trans (List.Perm.cons x ih)

/-- The flattened (key, value) pairs of an insertion-ordered grouping. -/
def assoc_pairs {V : Type} (m : List (List Char × List V)) :
    List (List Char × V) :=
  m.flatMap (fun kv => kv.2.map (fun v => (kv.1, v)))

theorem mem_assoc_pairs_intro {V : Type} {m : List (List Char × List V)}
    {kv : List Char × List V} {v : V} (hkv : kv ∈ m) (hv : v ∈ kv.2) :
    (kv.1, v) ∈ assoc_pairs m := by
  unfold assoc_pairs
  rw [List.mem_flatMap]
  exact ⟨kv, hkv, List.mem_map.mpr ⟨v, hv, rfl⟩⟩

theorem assoc_pairs_append_iff {V : Type} (m : List (List Char × List V))
    (k : List Char) (v : V) (p : List Char × V) :
    p ∈ assoc_pairs (assoc_append m k v) ↔ p ∈ assoc_pairs m ∨ p = (k, v) := by
  induction m with
  | nil => simp [assoc_append, assoc_pairs]
  | cons q rest ih =>
    obtain ⟨k0, vs0⟩ := q
    rw [assoc_append]
    by_cases h : k0 = k
    · rw [if_pos h]
      subst h
      show p ∈ (vs0 ++ [v]).map (fun v0 => (k0, v0)) ++ assoc_pairs rest ↔ _
      show _ ↔ p ∈ vs0.map (fun v0 => (k0, v0)) ++ assoc_pairs rest ∨ _
      rw [List.mem_append, List.mem_append, List.map_append, List.mem_append]
      simp only [List.map_singleton, List.mem_singleton]
      tauto
    · rw [if_neg h]
      show p ∈ vs0.map (fun v0 => (k0, v0)) ++ assoc_pairs (assoc_append rest k v) ↔ _
      show _ ↔ p ∈ vs0.map (fun v0 => (k0, v0)) ++ assoc_pairs rest ∨ _
      rw [List.mem_append, List.mem_append, ih]
      tauto

theorem group_pairs_iff :
    ∀ (entries : List SetlistEntry)
      (m : List (List Char × List (Int × List Char)))
      (p : List Char × (Int × List Char)),
      p ∈ assoc_pairs (entries.foldl (fun sets e =>
        assoc_append sets (e.set.getD unknown_set)
          (e.position.getD 999, rendered_song e)) m) ↔
      p ∈ assoc_pairs m ∨ ∃ e ∈ entries,
        p = (e.set.getD unknown_set,
          (e.position.getD 999, rendered_song e)) := by
  intro entries
  induction entries with
  | nil => intro m p; simp
  | cons e rest ih =>
    intro m p
    rw [List.foldl_cons, ih, assoc_pairs_append_iff,
      List.exists_mem_cons_iff]
    tauto

theorem extract_set_info_pairs_iff :
    ∀ (entries : List SetlistEntry) (st : SongFeatures × List (List Char))
      (p : List Char × List Char),
      p ∈ assoc_pairs ((entries.foldl extract_entry st).1.set_info) ↔
      p ∈ assoc_pairs st.1.set_info ∨ ∃ e ∈ entries,
        (py_strip (e.song.getD unknown_song) ≠ [] ∧
          py_strip (e.song.getD unknown_song) ≠ unknown_song) ∧
        p = (e.set.getD unknown_set, py_strip (e.song.getD unknown_song)) := by
  intro entries
  induction entries with
  | nil => intro st p; simp
  | cons e rest ih =>
    intro st p
    rw [List.foldl_cons, ih, List.exists_mem_cons_iff]
    by_cases hc : py_strip (e.song.getD unknown_song) ≠ [] ∧
        py_strip (e.song.getD unknown_song) ≠ unknown_song
    · have hstep : (extract_entry st e).1.set_info =
          assoc_append st.1.set_info (e.set.getD unknown_set)
            (py_strip (e.song.getD unknown_song)) := by
        simp only [extract_entry, if_pos hc]
    
      rw [hstep, assoc_pairs_append_iff]
      tauto
    · have hstep : (extract_entry st e).1.set_info = st.1.set_info := by
        simp only [extract_entry, if_neg hc]
      rw [hstep]
      tauto

theorem group_values_ne_nil :
    ∀ (entries : List SetlistEntry)
      (m : List (List Char × List (Int × List Char))),
      (∀ kv ∈ m, kv.2 ≠ []) →
      ∀ kv ∈ entries.foldl (fun sets e =>
        assoc_append sets (e.set.getD unknown_set)
          (e.position.getD 999, rendered_song e)) m, kv.2 ≠ [] := by
  intro entries
  induction entries with
  | nil => intro m hm kv hkv; exact hm kv hkv
  | cons e rest ih =>
    intro m hm kv hkv
    rw [List.foldl_cons] at hkv
    refine ih _ ?_ kv hkv
    intro kv2 hkv2
    clear hkv ih
    induction m with
    | nil =>
      simp only [assoc_append, List.mem_singleton] at hkv2
      rw [hkv2]
      simp
    | cons q m2 ihm =>
      obtain ⟨k0, vs0⟩ := q
      rw [assoc_append] at hkv2
      by_cases h : k0 = e.set.getD unknown_set
      · rw [if_pos h] at hkv2
        rcases List.mem_cons.mp hkv2 with h1 | h1
        · rw [h1]; simp
        · exact hm _ (List.mem_cons_of_mem _ h1)
      · rw [if_neg h] at hkv2
        rcases List.mem_cons.mp hkv2 with h1 | h1
        · rw [h1]; exact hm (k0, vs0) (List.mem_cons_self _ _)
        · exact ihm (fun kv3 hkv3 => hm kv3 (List.mem_cons_of_mem _ hkv3)) h1

theorem mem_intercalate {c : Char} {sep : List Char} :
    ∀ {parts : List (List Char)}, c ∈ List.intercalate sep parts →
      c ∈ sep ∨ ∃ part ∈ parts, c ∈ part := by
  intro parts
  induction parts with
  | nil => intro h; simp [List.intercalate] at h
  | cons p rest ih =>
    intro h
    cases rest with
    | nil =>
      rw [intercalate_single] at h
      exact Or.inr ⟨p, List.mem_cons_self _ _, h⟩
    | cons q rest2 =>
      rw [intercalate_cons₂] at h
      rcases List.mem_append.mp h with h1 | h1
      · rcases List.mem_append.mp h1 with h2 | h2
        · exact Or.inr ⟨p, List.mem_cons_self _ _, h2⟩
        · exact Or.inl h2
      · rcases ih h1 with h2 | ⟨part, hp, hc⟩
        · exact Or.inl h2
        · exact Or.inr ⟨part, List.mem_cons_of_mem _ hp, hc⟩

theorem rows_pairs_forward (k : List Char) (P : SetlistEntry → Prop) :
    ∀ (songs : List (List Char)) (i : Nat),
      (∀ r ∈ songs, ∃ e, P e ∧ entry_roundtrip_ok e ∧ r = rendered_song e) →
      ∀ row ∈ (List.enumFrom i songs).filterMap
        (fun pr => parse_song_entry k pr.1 pr.2),
        ∃ e, P e ∧ row.set_name = k ∧
          row.song_name = py_strip (e.song.getD unknown_song) := by
  intro songs
  induction songs with
  | nil => intro i _ row hrow; simp [List.enumFrom] at hrow
  | cons r rest ih =>
    intro i hall row hrow
    obtain ⟨e, hP, hok, hre⟩ := hall r (List.mem_cons_self _ _)
    obtain ⟨hs, si, hpse⟩ := parse_song_entry_rendered k i e hok
    rw [← hre] at hpse
    rw [List.enumFrom, List.filterMap_cons] at hrow
    simp only [hpse] at hrow
    rcases List.mem_cons.mp hrow with h | h
    · exact ⟨e, hP, by rw [h], by rw [h]⟩
    · exact ih (i + 1) (fun r2 hr2 => hall r2 (List.mem_cons_of_mem _ hr2)) row h

theorem rows_pairs_backward (k : List Char) :
    ∀ (songs : List (List Char)) (i : Nat) (e : SetlistEntry),
      entry_roundtrip_ok e → rendered_song e ∈ songs →
      ∃ row ∈ (List.enumFrom i songs).filterMap
        (fun pr => parse_song_entry k pr.1 pr.2),
        row.set_name = k ∧
        row.song_name = py_strip (e.song.getD unknown_song) := by
  intro songs
  induction songs with
  | nil => intro i e _ hmem; exact absurd hmem (List.not_mem_nil _)
  | cons r rest ih =>
    intro i e hok hmem
    rw [List.enumFrom, List.filterMap_cons]
    rcases List.mem_cons.mp hmem with h | h
    · obtain ⟨hs, si, hpse⟩ := parse_song_entry_rendered k i e hok
      rw [h] at hpse
      simp only [hpse]
      exact ⟨_, List.mem_cons_self _ _, rfl, rfl⟩
    · obtain ⟨row, hrowmem, h1, h2⟩ := ih (i + 1) e hok h
      cases hpar : parse_song_entry k i r with
      | none =>
        simp only [hpar]
        exact ⟨row, hrowmem, h1, h2⟩
      | some row0 =>
        simp only [hpar]
        exact ⟨row, List.mem_cons_of_mem _ hrowmem, h1, h2⟩

theorem render_set_ne_nil (kv : List Char × List (Int × List Char)) :
    render_set kv ≠ [] := by
  unfold render_set
  rw [show ": ".data = [':', ' '] from rfl]
  intro h
  have hl := congrArg List.length h
  simp [List.length_append] at hl

theorem group_by_set_ne_nil {entries : List SetlistEntry} (hne : entries ≠ []) :
    group_by_set entries ≠ [] := by
  intro h
  obtain ⟨e, rest, rfl⟩ := List.exists_cons_of_ne_nil hne
  have hk := group_fold_keys (e :: rest) []
  rw [show (e :: rest).foldl (fun sets e =>
    assoc_append sets (e.set.getD unknown_set)
      (e.position.getD 999, rendered_song e)) [] = group_by_set (e :: rest)
    from rfl, h] at hk
  simp [first_occurrence_from] at hk

theorem format_parse_flatMap (entries : List SetlistEntry) (hne : entries ≠ [])
    (hpipe : ∀ seg ∈ (group_by_set entries).map render_set, '|' ∉ seg) :
    parse_setlist_for_ml (format_setlist_from_show entries) =
      (group_by_set entries).flatMap
        (fun kv => parse_set_segment (render_set kv)) := by
  have hgne : group_by_set entries ≠ [] := group_by_set_ne_nil hne
  have hfne : format_setlist_from_show entries ≠ [] := by
    unfold format_setlist_from_show
    rw [if_neg hne]
    obtain ⟨kv, gr, hg⟩ := List.exists_cons_of_ne_nil hgne
    rw [hg, List.map_cons]
    cases gr with
    | nil =>
      rw [List.map_nil, intercalate_single]
      exact render_set_ne_nil kv
    | cons kv2 gr2 =>
      rw [List.map_cons, intercalate_cons₂]
      exact List.append_ne_nil_of_left_ne_nil
        (List.append_ne_nil_of_left_ne_nil (render_set_ne_nil kv) _) _
  unfold parse_setlist_for_ml
  rw [if_neg hfne]
  unfold format_setlist_from_show
  rw [if_neg hne]
  rw [show " | ".data = [' '] ++ '|' :: [' '] from rfl]
  have hmap := @map_strip_split_intercalate '|' [' '] [' ']
    (by intro c hc; simp at hc; rw [hc]; exact ⟨rfl, by decide⟩)
    (by intro c hc; simp at hc; rw [hc]; exact ⟨rfl, by decide⟩)
    ((group_by_set entries).map render_set) (by simpa using hgne) hpipe
  rw [flatMap_pss_ext hmap]
  clear hmap hpipe hfne hgne hne
  induction group_by_set entries with
  | nil => rfl
  | cons kv gr ih =>
    rw [List.map_cons, List.flatMap_cons, List.flatMap_cons, ih]

theorem group_kv_entry {entries : List SetlistEntry}
    (hwf : ∀ e ∈ entries, entry_roundtrip_ok e)
    {kv : List Char × List (Int × List Char)}
    (hkv : kv ∈ group_by_set entries) {v : Int × List Char} (hv : v ∈ kv.2) :
    ∃ e ∈ entries, entry_roundtrip_ok e ∧ kv.1 = e.set.getD unknown_set ∧
      v = (e.position.getD 999, rendered_song e) := by
  have hpair := mem_assoc_pairs_intro hkv hv
  unfold group_by_set at hpair
  rw [group_pairs_iff] at hpair
  rcases hpair with habs | ⟨e, he, heq⟩
  · simp [assoc_pairs] at habs
  · exact ⟨e, he, hwf e he, congrArg Prod.fst heq, congrArg Prod.snd heq⟩

theorem songs_mem_entry {entries : List SetlistEntry}
    (hwf : ∀ e ∈ entries, entry_roundtrip_ok e)
    {kv : List Char × List (Int × List Char)}
    (hkv : kv ∈ group_by_set entries) {r : List Char}
    (hr : r ∈ (sort_by_position kv.2).map Prod.snd) :
    ∃ e ∈ entries, entry_roundtrip_ok e ∧ kv.1 = e.set.getD unknown_set ∧
      r = rendered_song e := by
  obtain ⟨v, hv, hvr⟩ := List.mem_map.mp hr
  have hv2 : v ∈ kv.2 := (sort_by_position_perm kv.2).mem_iff.mp hv
  obtain ⟨e, he, hok, h1, h2⟩ := group_kv_entry hwf hkv hv2
  exact ⟨e, he, hok, h1, by rw [← hvr, h2]⟩

theorem group_by_set_values_ne_nil (entries : List SetlistEntry) :
    ∀ kv ∈ group_by_set entries, kv.2 ≠ [] := by
  intro kv hkv
  unfold group_by_set at hkv
  exact group_values_ne_nil entries [] (by simp) kv hkv

theorem group_kv_key_facts {entries : List SetlistEntry}
    (hwf : ∀ e ∈ entries, entry_roundtrip_ok e)
    {kv : List Char × List (Int × List Char)}
    (hkv : kv ∈ group_by_set entries) :
    py_strip kv.1 = kv.1 ∧ ':' ∉ kv.1 ∧ '|' ∉ kv.1 := by
  obtain ⟨v, hv⟩ :=
    List.exists_mem_of_ne_nil kv.2 (group_by_set_values_ne_nil entries kv hkv)
  obtain ⟨e, he, hok, h1, _⟩ := group_kv_entry hwf hkv hv
  obtain ⟨_, _, _, _, _, _, hset_strip, hset_pipe, hset_colon, _⟩ := hok
  exact ⟨by rw [h1]; exact hset_strip, by rw [h1]; exact hset_colon,
    by rw [h1]; exact hset_pipe⟩

theorem group_songs_no_char {entries : List SetlistEntry}
    (hwf : ∀ e ∈ entries, entry_roundtrip_ok e)
    {kv : List Char × List (Int × List Char)}
    (hkv : kv ∈ group_by_set entries) :
    ∀ r ∈ (sort_by_position kv.2).map Prod.snd, ',' ∉ r ∧ '|' ∉ r := by
  intro r hr
  obtain ⟨e, he, hok, _, hre⟩ := songs_mem_entry hwf hkv hr
  have hok2 := hok
  obtain ⟨_, _, hpipe_s, hcomma_s, _, _, _, _, _, _⟩ := hok2
  constructor
  · rw [hre]
    exact rendered_song_no_char e hok hcomma_s (by decide) (by decide)
  · rw [hre]
    exact rendered_song_no_char e hok hpipe_s (by decide) (by decide)

theorem group_segment_no_pipe {entries : List SetlistEntry}
    (hwf : ∀ e ∈ entries, entry_roundtrip_ok e) :
    ∀ seg ∈ (group_by_set entries).map render_set, '|' ∉ seg := by
  intro seg hseg
  obtain ⟨kv, hkv, hrender⟩ := List.mem_map.mp hseg
  obtain ⟨hks, hkc, hkp⟩ := group_kv_key_facts hwf hkv
  rw [← hrender]
  intro hm
  unfold render_set at hm
  rcases List.mem_append.mp hm with h | h
  · rcases List.mem_append.mp h with h2 | h2
    · exact hkp h2
    · rw [show ": ".data = [':', ' '] from rfl] at h2
      exact absurd h2 (by decide)
  · rcases mem_intercalate h with h2 | ⟨part, hp, hc⟩
    · rw [show ", ".data = [',', ' '] from rfl] at h2
      exact absurd h2 (by decide)
    · exact (group_songs_no_char hwf hkv part hp).2 hc

/-- C5 (amended): for entry lists that are well-formed for the round trip
(see `entry_roundtrip_ok`: stripped song names non-empty and not the
placeholder, song names free of the delimiters `|`, `,`, `:`, `>`; set
labels already stripped and free of `|` and `:`; segue markers blank or
non-empty runs of `>`), the set of (set label, song name) pairs recovered
by `parse_setlist_for_ml` from the string produced by
`format_setlist_from_show` equals the set of pairs of the feature bag's
`set_info` groupings produced by `extract_song_features_from_setlist` on
the same entries. -/
theorem C5_roundtrip_pairs (entries : List SetlistEntry)
    (hwf : ∀ e ∈ entries, entry_roundtrip_ok e)
    (p : List Char × List Char) :
    p ∈ (parse_setlist_for_ml (format_setlist_from_show entries)).map
        (fun row => (row.set_name, row.song_name)) ↔
    p ∈ assoc_pairs
        (extract_song_features_from_setlist [] entries).1.set_info := by
  have hrhs : p ∈ assoc_pairs
      (extract_song_features_from_setlist [] entries).1.set_info ↔
      ∃ e ∈ entries, p = (e.set.getD unknown_set,
        py_strip (e.song.getD unknown_song)) := by
    unfold extract_song_features_from_setlist
    rw [extract_set_info_pairs_iff]
    constructor
    · rintro (habs | ⟨e, he, _, hp⟩)
      · simp [assoc_pairs, empty_features] at habs
      · exact ⟨e, he, hp⟩
    · rintro ⟨e, he, hp⟩
      obtain ⟨h1, h2, _⟩ := hwf e he
      exact Or.inr ⟨e, he, ⟨h1, h2⟩, hp⟩
  rw [hrhs]
  by_cases hne : entries = []
  · subst hne
    simp [parse_setlist_for_ml, format_setlist_from_show]
  · rw [format_parse_flatMap entries hne (group_segment_no_pipe hwf)]
    constructor
    · intro hp
      obtain ⟨row, hrow, hpair⟩ := List.mem_map.mp hp
      obtain ⟨kv, hkv, hrow2⟩ := List.mem_flatMap.mp hrow
      obtain ⟨hks, hkc, hkp⟩ := group_kv_key_facts hwf hkv
      have hsne : (sort_by_position kv.2).map Prod.snd ≠ [] := by
        intro h
        have hlen := congrArg List.length h
        rw [List.length_map, List.length_nil] at hlen
        have hperm := (sort_by_position_perm kv.2).length_eq
        rw [hlen] at hperm
        exact group_by_set_values_ne_nil entries kv hkv
          (List.length_eq_zero.mp hperm.symm)
      have hseg := parse_set_segment_render kv.1 kv.2 hks hkc hsne
        (fun r hr => (group_songs_no_char hwf hkv r hr).1)
      rw [Prod.mk.eta] at hseg
      rw [hseg] at hrow2
      have hall : ∀ r ∈ (sort_by_position kv.2).map Prod.snd,
          ∃ e, (e ∈ entries ∧ kv.1 = e.set.getD unknown_set) ∧
            entry_roundtrip_ok e ∧ r = rendered_song e := by
        intro r hr
        obtain ⟨e, he, hok, h1, h2⟩ := songs_mem_entry hwf hkv hr
        exact ⟨e, ⟨he, h1⟩, hok, h2⟩
      obtain ⟨e, ⟨he, hlab⟩, hsn, hsg⟩ :=
        rows_pairs_forward kv.1 _ _ 1 hall row hrow2
      refine ⟨e, he, ?_⟩
      rw [← hpair, hsn, hsg, hlab]
    · rintro ⟨e, he, hp⟩
      have hok := hwf e he
      have hpair : (e.set.getD unknown_set,
          (e.position.getD 999, rendered_song e)) ∈
          assoc_pairs (group_by_set entries) := by
        unfold group_by_set
        rw [group_pairs_iff]
        exact Or.inr ⟨e, he, rfl⟩
      unfold assoc_pairs at hpair
      obtain ⟨kv, hkv, hmem⟩ := List.mem_flatMap.mp hpair
      obtain ⟨v, hv, hveq⟩ := List.mem_map.mp hmem
      have hk1 : kv.1 = e.set.getD unknown_set := congrArg Prod.fst hveq
      have hv2 : v = (e.position.getD 999, rendered_song e) :=
        congrArg Prod.snd hveq
      have hrs : rendered_song e ∈ (sort_by_position kv.2).map Prod.snd := by
        refine List.mem_map.mpr ⟨v, ?_, ?_⟩
        · exact (sort_by_position_perm kv.2).mem_iff.mpr hv
        · rw [hv2]
      obtain ⟨hks, hkc, hkp⟩ := group_kv_key_facts hwf hkv
      have hsne : (sort_by_position kv.2).map Prod.snd ≠ [] :=
        fun h => absurd (h ▸ hrs) (List.not_mem_nil _)
      have hseg := parse_set_segment_render kv.1 kv.2 hks hkc hsne
        (fun r hr => (group_songs_no_char hwf hkv r hr).1)
      rw [Prod.mk.eta] at hseg
      obtain ⟨row, hrowmem, h1, h2⟩ :=
        rows_pairs_backward kv.1 _ 1 e hok hrs
      refine List.mem_map.mpr ⟨row, ?_, ?_⟩
      · exact List.mem_flatMap.mpr ⟨kv, hkv, by rw [hseg]; exact hrowmem⟩
      · rw [h1, h2, hk1, hp]

/-- An entry whose song name contains a comma. -/
def c5_bad_entries : List SetlistEntry :=
  [⟨some "Set 1".data, some "a,b".data, some 1, some []⟩]

/-- C5 counterexample: a song name containing a comma breaks the round
trip.  The formatter produces `"Set 1: a,b"`, which the parser splits into
the two songs `a` and `b`, while the feature bag's grouping keeps the one
song `a,b`; the two (set, song) pair sets differ although no segue markers
are involved, so the modulo-segue-rendering caveat cannot rescue the claim
as stated over every entry list. -/
theorem C5_counterexample :
    ("Set 1".data, "a".data) ∈
      (parse_setlist_for_ml (format_setlist_from_show c5_bad_entries)).map
        (fun row => (row.set_name, row.song_name)) ∧
    ("Set 1".data, "a".data) ∉ assoc_pairs
      (extract_song_features_from_setlist [] c5_bad_entries).1.set_info := by
  exact ⟨by decide, by decide⟩

/-- Well-formed demonstration entries for the C5 witness. -/
def c5_good_entries : List SetlistEntry :=
  [⟨some "Set 1".data, some "Tweezer".data, some 1, some ">".data⟩,
   ⟨some "Encore".data, some "Foam".data, some 1, some []⟩]

theorem C5_roundtrip_pairs_witness :
    ("Set 1".data, "Tweezer".data) ∈
      (parse_setlist_for_ml (format_setlist_from_show c5_good_entries)).map
        (fun row => (row.set_name, row.song_name)) ↔
    ("Set 1".data, "Tweezer".data) ∈ assoc_pairs
      (extract_song_features_from_setlist [] c5_good_entries).1.set_info :=
  C5_roundtrip_pairs c5_good_entries (by decide)
    ("Set 1".data, "Tweezer".data)
